import Mathlib

/-!
Verification of Script.js: procedural generators over one seeded random stream

A shallow embedding of `src/Script.js`.

Conventions of the embedding
* JavaScript numbers that hold 32-bit integers are `Int`/`Nat` with the
  conversions `toInt32`/`toUint32` written out where the source applies
  `| 0`, `>>> 0`, `Math.imul` or `^`.
* Other JavaScript numbers are elements of an ordered field `K` with a floor
  function (`ℚ` for evaluation, `ℝ` for statements in exact real arithmetic),
  so arithmetic is exact and the decimal constants of the source (`0.45`,
  `0.002`, `0.98`, ...) are the fractions they denote; `Math.cos`, `Math.sin`
  and `Math.PI` are parameters `cs`, `sn`, `pi`.  `weightedPick`, whose result
  turns on the sign of a rounded sum, takes its `+`, `*` and `-` as
  parameters, so that its statements hold for rounded arithmetic too.
* The module-level stream `rnd` is a sequence `rnd : Nat → K` of the values its
  successive calls return, with the number of calls made so far passed along as
  a cursor.  `rngStream seed` is the sequence the source's `rng(seed)` produces.
* Arrays are lists, strings are lists of characters, `null`/`undefined` cells
  are `none`.
-/

namespace Script

/-! ## 32-bit integer conversions -/

/-- ToUint32 of an integer: the value modulo `2^32`, as used by `>>> 0`. -/
def toUint32 (n : Int) : Nat := (n % 4294967296).toNat

/-- ToInt32 of an integer: the two's-complement reading of the low 32 bits,
as used by `| 0`. -/
def toInt32 (n : Int) : Int :=
  let u := n % 4294967296
  if u < 2147483648 then u else u - 4294967296

/-- Source `Math.imul(a, b)`: the low 32 bits of the product, read as signed. -/
def imul (a b : Int) : Int := toInt32 (toInt32 a * toInt32 b)

/-- Source `a >>> k`: unsigned right shift of the 32-bit pattern of `a`. -/
def ushr (a : Int) (k : Nat) : Nat := toUint32 a >>> (k % 32)

/-- Source `a ^ b`: bitwise xor of the 32-bit patterns, read as signed. -/
def jsXor (a b : Int) : Int := toInt32 (Int.ofNat (toUint32 a ^^^ toUint32 b))

/-! ## The seeded stream `rng` -/

/-- One call of the closure returned by `rng`: the three assignments to `s`
(lines 6-8). -/
def rngStep (s : Int) : Int :=
  let s1 := toInt32 (imul 48271 s)
  let s2 := jsXor s1 (Int.ofNat (ushr s1 13))
  toInt32 (s2 + 2147483647)

/-- State of `rng(seed)` after `n` calls; the initial state is `seed >>> 0`. -/
def rngState (seed : Int) : Nat → Int
  | 0 => Int.ofNat (toUint32 seed)
  | n + 1 => rngStep (rngState seed n)

/-- Numerator of the value returned by a call that leaves the state `s`:
`s >>> 0`. -/
def rngOut (s : Int) : Nat := toUint32 s

/-- The `n`-th value (counting from 1) returned by `rng(seed)`:
`(s >>> 0) / 4294967296`. -/
def rngValue (seed : Int) (n : Nat) : ℚ := (rngOut (rngState seed n) : ℚ) / 4294967296

/-- The sequence of values of `rng(seed)`, indexed from 0 by the number of
calls already made. -/
def rngStream (seed : Int) : Nat → ℚ := fun i => rngValue seed (i + 1)

/-- The state update of `rng` in the words of the specification, on unsigned
32-bit words: multiply by 48271, xor with the unsigned right shift by 13, add
`0x7fffffff`, each modulo `2^32`. -/
def rngStepWord (u : Nat) : Nat :=
  let u1 := (48271 * u) % 4294967296
  let u2 := u1 ^^^ (u1 >>> 13)
  (u2 + 2147483647) % 4294967296

/-! ## Grids -/

/-- Source `makeGrid(w, h, fill)` with a function `fill(x, y)`; a constant fill is the
constant function. -/
def makeGrid {β : Type} (w h : Nat) (fill : Nat → Nat → β) : List (List β) :=
  (List.range h).map fun y => (List.range w).map fun x => fill x y

/-- The read `grid[y][x]`; `none` stands for `undefined`. -/
def cellAt {β : Type} (grid : List (List β)) (y x : Nat) : Option β :=
  match grid.get? y with
  | some row => row.get? x
  | none => none

/-- The write `out[y][x] = v` for a cell inside the grid. -/
def setCell {β : Type} (out : List (List β)) (y x : Nat) (v : β) : List (List β) :=
  match out.get? y with
  | some row => out.set y (row.set x v)
  | none => out

/-- The body of the inner loop of `mirror` (lines 50-51). -/
def mirrorCell {β : Type} (grid : List (List β)) (w y : Nat)
    (out : List (List (Option β))) (x : Nat) : List (List (Option β)) :=
  let out1 := setCell out y x (cellAt grid y x)
  if 2 * x < w then setCell out1 y (w - 1 - x) (cellAt grid y x) else out1

/-- Source `mirror(grid)`; `none` when `grid[0].length` throws on an empty grid.
Cells of the result are `some v`, or `none` for a cell left `null`. -/
def mirror {β : Type} (grid : List (List β)) : Option (List (List (Option β))) :=
  match grid with
  | [] => none
  | row0 :: _ =>
    let h := grid.length
    let w := row0.length
    let out := makeGrid w h (fun _ _ => (none : Option β))
    some ((List.range h).foldl
      (fun out y => (List.range w).foldl (mirrorCell grid w y) out) out)

/-- The double loop `for(let y=0;y<h;y++) for(let x=0;x<w;x++) body`, run on a
state `σ` that the body updates. -/
def forCells {σ : Type} (w h : Nat) (body : σ → Nat → Nat → σ) (init : σ) : σ :=
  (List.range h).foldl (fun s y => (List.range w).foldl (fun s x => body s x y) s) init

/-- A grid of `h` rows of `w` cells. -/
def IsGrid {β : Type} (w h : Nat) (g : List (List β)) : Prop :=
  g.length = h ∧ ∀ row ∈ g, row.length = w

/-! ## Helpers built on the stream -/

section Numeric

variable {K : Type} [LinearOrderedField K] [FloorRing K]

/-- Source `clamp(v, a, b) = Math.max(a, Math.min(b, v))`. -/
def clamp (v a b : K) : K := max a (min b v)

/-- The loop of `weightedPick` from index `i` on (lines 18-21): `some a` when
the loop returns `a`, `none` when it ends without returning.  A missing
`weights[i]` makes `x` NaN, after which no test `x <= 0` succeeds.  The
numbers are elements of a linearly ordered type `F` and `sub` is the
subtraction `x -= weights[i]` of the arithmetic in use. -/
def weightedPickLoop {F : Type} [LinearOrder F] [Zero F] {β : Type} (sub : F → F → F) :
    List β → List F → F → Option β
  | [], _, _ => none
  | _ :: _, [], _ => none
  | a :: as, wt :: ws, x =>
    let x1 := sub x wt
    if x1 ≤ 0 then some a else weightedPickLoop sub as ws x1

/-- Source `weightedPick(arr, weights)` with the stream at cursor `c`: the element
returned (`none` for `undefined`) and the new cursor.  The operations `+`, `*`
and `-` of lines 16-19 are the parameters `add`, `mul` and `sub`: the field
operations in exact arithmetic, the rounded operations in binary64. -/
def weightedPick {F : Type} [LinearOrder F] [Zero F] {β : Type} (add mul sub : F → F → F)
    (rnd : Nat → F) (c : Nat) (arr : List β) (weights : List F) : Option β × Nat :=
  let sum := weights.foldl (fun a b => add a b) 0
  let x := mul (rnd c) sum
  match weightedPickLoop sub arr weights x with
  | some a => (some a, c + 1)
  | none => (arr.getLast?, c + 1)

end Numeric

/-! ## Cellular automaton -/

section Automaton

variable {K : Type} [LinearOrderedField K] [FloorRing K]

/-- A grid of the automaton: a cell holds a number, or `none` for `undefined`. -/
abbrev CAGrid := List (List (Option Nat))

/-- A rule object: the assignments `r[k] = v` made so far, latest first. -/
abbrev Rule := List (List Char × Nat)

/-- The read `rule[key]`: the value of the latest assignment to `key`, `none`
for `undefined`. -/
def ruleGet (r : Rule) (key : List Char) : Option Nat :=
  match r.find? (fun kv => kv.1 == key) with
  | some kv => some kv.2
  | none => none

/-- Source `i.toString(2).padStart(9,'0')`. -/
def ruleKey (i : Nat) : List Char :=
  let d := Nat.toDigits 2 i
  List.replicate (9 - d.length) '0' ++ d

/-- Lines 180-182: every cell is set to `rnd() < 0.45 ? 1 : 0`, row by row.
The state is the grid and the stream cursor. -/
def caInit (rnd : Nat → K) (c : Nat) (w h : Nat) : CAGrid × Nat :=
  forCells w h
    (fun s x y => (setCell s.1 y x (some (if rnd s.2 < 45 / 100 then 1 else 0)), s.2 + 1))
    (makeGrid w h (fun _ _ => some 0), c)

/-- Lines 183-188: the rule object, one draw `(rnd() > .5) ? 1 : 0` per key in
the order of `range(512)`. -/
def caRule (rnd : Nat → K) (c : Nat) : Rule × Nat :=
  ((List.range 512).map ruleKey).foldl
    (fun s k => ((k, if rnd s.2 > 1 / 2 then 1 else 0) :: s.1, s.2 + 1)) ([], c)

/-- The offsets `(dy, dx)` in the order of the loops of line 195. -/
def caOffsets : List (Int × Int) :=
  [(-1, -1), (-1, 0), (-1, 1), (0, -1), (0, 0), (0, 1), (1, -1), (1, 0), (1, 1)]

/-- The read `a[ny][nx]` of a grid of the automaton. -/
def caRead (a : CAGrid) (ny nx : Nat) : Option Nat :=
  match cellAt a ny nx with
  | some v => v
  | none => none

/-- The character `a[ny][nx] ? '1' : '0'`. -/
def caBit (v : Option Nat) : Char :=
  match v with
  | some (_ + 1) => '1'
  | _ => '0'

/-- Lines 194-198: the key of cell `(x, y)`, with `nx = (x+dx+w)%w` and
`ny = (y+dy+h)%h` (`%` is the truncated remainder). -/
def caKey (a : CAGrid) (w h x y : Nat) : List Char :=
  caOffsets.map fun d =>
    let nx := (((x : Int) + d.2 + (w : Int)).tmod (w : Int)).toNat
    let ny := (((y : Int) + d.1 + (h : Int)).tmod (h : Int)).toNat
    caBit (caRead a ny nx)

/-- Lines 192-201: one generation.  `b` is filled from `a`, then copied back
into `a` cell by cell. -/
def caStep (rule : Rule) (w h : Nat) (a : CAGrid) : CAGrid :=
  let b : CAGrid := forCells w h (fun b x y => setCell b y x (ruleGet rule (caKey a w h x y)))
    (makeGrid w h (fun _ _ => some 0))
  forCells w h (fun a x y => setCell a y x (caRead b y x)) a

/-- The loop of lines 190-202 with `n` iterations left: the snapshot of `a` is
pushed, then `a` is updated. -/
def caLoop (rule : Rule) (w h : Nat) : Nat → CAGrid → List CAGrid
  | 0, _ => []
  | n + 1, a => a :: caLoop rule w h n (caStep rule w h a)

/-- Source `cellularAutomaton(w, h, iter, ruleSeed)` with the stream at cursor `c`:
the snapshots and the new cursor.  `ruleSeed` is not read by the source. -/
def cellularAutomaton (rnd : Nat → K) (c : Nat) (w h iter : Nat) (_ruleSeed : Int) :
    List CAGrid × Nat :=
  let a := caInit rnd c w h
  let rule := caRule rnd a.2
  (caLoop rule.1 w h iter a.1, rule.2)

/-- A cell of the automaton holds 0 or 1. -/
def IsBit (cell : Option Nat) : Prop := cell = some 0 ∨ cell = some 1

end Automaton

/-! ## L-system -/

section LSystem

variable {K : Type} [LinearOrderedField K] [FloorRing K]

/-- An entry of the array `path`: `null`, a point `[x, y]`, or the record
`['P', x, y, dir]` pushed at `[`. -/
inductive PathEntry (K : Type) where
  | null : PathEntry K
  | point (x y : K) : PathEntry K
  | marker (x y dir : K) : PathEntry K
  deriving DecidableEq

/-- One pass of the rewriting loop (lines 209-213): `rules[ch]` when it is
defined, else `ch`. -/
def rewrite (rules : Char → Option (List Char)) (s : List Char) : List Char :=
  s.foldl (fun ns ch => ns ++ (match rules ch with
    | some r => r
    | none => [ch])) []

/-- Lines 207-214: the string after `iter` passes. -/
def expand (rules : Char → Option (List Char)) : Nat → List Char → List Char
  | 0, s => s
  | n + 1, s => expand rules n (rewrite rules s)

/-- The turtle while it reads the string: position, heading and `path`, which
is kept with its last element first. -/
structure Turtle (K : Type) where
  x : K
  y : K
  dir : K
  path : List (PathEntry K)

/-- The loop of lines 227-234 at `]`: entries are popped until a record
`['P', x, y, dir]` is popped, which restores the turtle and pushes `[x, y]`;
if `path` runs empty the turtle keeps its position and heading. -/
def popToMarker (x y dir : K) : List (PathEntry K) → Turtle K
  | [] => ⟨x, y, dir, []⟩
  | PathEntry.marker px py pd :: rest => ⟨px, py, pd, PathEntry.point px py :: rest⟩
  | _ :: rest => popToMarker x y dir rest

/-- The body of the loop of lines 218-236 for one character. -/
def turtleStep (cs sn : K → K) (pi angle step : K) (t : Turtle K) (ch : Char) : Turtle K :=
  if ch = 'F' ∨ ch = 'G' then
    let x := t.x + cs t.dir * step
    let y := t.y + sn t.dir * step
    ⟨x, y, t.dir, PathEntry.point x y :: t.path⟩
  else if ch = '+' then ⟨t.x, t.y, t.dir + angle * pi / 180, t.path⟩
  else if ch = '-' then ⟨t.x, t.y, t.dir - angle * pi / 180, t.path⟩
  else if ch = '[' then
    ⟨t.x, t.y, t.dir, PathEntry.marker t.x t.y t.dir :: PathEntry.null :: t.path⟩
  else if ch = ']' then popToMarker t.x t.y t.dir t.path
  else t

/-- Lines 216-237 on the string `s`: the turtle starts at `(0,0)` with heading
0 and `path = [[0,0]]`; the result is `path.filter(p => p !== null)`. -/
def interpret (cs sn : K → K) (pi angle step : K) (s : List Char) : List (PathEntry K) :=
  let t := s.foldl (turtleStep cs sn pi angle step) ⟨0, 0, 0, [PathEntry.point 0 0]⟩
  t.path.reverse.filter (fun p => decide (p ≠ PathEntry.null))

/-- Source `lsystem(iter, axiom, rules, angle, step)`, with `Math.cos`, `Math.sin` and
`Math.PI` as `cs`, `sn` and `pi`. -/
def lsystem (cs sn : K → K) (pi : K) (iter : Nat) (axm : List Char)
    (rules : Char → Option (List Char)) (angle step : K) : List (PathEntry K) :=
  interpret cs sn pi angle step (expand rules iter axm)

end LSystem

/-! ## Particle system -/

section Particles

variable {K : Type} [LinearOrderedField K] [FloorRing K]

/-- The remainder `a % b` of JavaScript on numbers: `a - b * trunc(a / b)`, with
the sign of `a`. -/
def jsRem (a b : K) : K :=
  let q := a / b
  a - b * (if 0 ≤ q then (Int.floor q : K) else (Int.ceil q : K))

/-- The digit `d < 36` as `toString(36)` writes it: `0`-`9`, then `a`-`z`. -/
def digit36 (d : Nat) : Char :=
  if d < 10 then Char.ofNat (48 + d) else Char.ofNat (87 + d)

/-- The base-36 digits of `n` in front of `acc`, most significant first. -/
def digits36 : Nat → Nat → List Char → List Char
  | 0, _, acc => acc
  | fuel + 1, n, acc =>
    if n / 36 = 0 then digit36 (n % 36) :: acc
    else digits36 fuel (n / 36) (digit36 (n % 36) :: acc)

/-- Source `n.toString(36)` of an integer. -/
def toString36 (n : Int) : List Char :=
  if n < 0 then '-' :: digits36 (n.natAbs + 1) n.natAbs []
  else digits36 (n.natAbs + 1) n.natAbs []

/-- Source `id(n)`: `n.toString(36) + '-' + Math.floor(rnd()*1e9).toString(36)`, one
draw. -/
def id (rnd : Nat → K) (c : Nat) (n : Nat) : List Char × Nat :=
  (toString36 n ++ '-' :: toString36 (Int.floor (rnd c * 1000000000)), c + 1)

/-- A particle object. -/
structure Particle (K : Type) where
  id : List Char
  x : K
  y : K
  vx : K
  vy : K
  life : Int
  col : List Int
  size : K

/-- An entry of a snapshot: `{x, y, size, col}`. -/
structure Snap (K : Type) where
  x : K
  y : K
  size : K
  col : List Int

/-- The object literal of lines 137-146 for index `i`: ten draws, in the order
of the properties. -/
def newParticle (rnd : Nat → K) (c : Nat) (w h : K) (i : Nat) : Particle K × Nat :=
  ({ id := (id rnd c i).1
     x := rnd (c + 1) * w
     y := rnd (c + 2) * h
     vx := (rnd (c + 3) - 1 / 2) * 2
     vy := (rnd (c + 4) - 1 / 2) * 2
     life := Int.floor (30 + rnd (c + 5) * 600)
     col := [Int.floor (rnd (c + 6) * 255), Int.floor (rnd (c + 7) * 255),
             Int.floor (rnd (c + 8) * 255)]
     size := 1 / 2 + rnd (c + 9) * 3 }, c + 10)

/-- The loop of lines 136-147 from index `i`, `n` particles left to create. -/
def initParticles (rnd : Nat → K) (w h : K) : Nat → Nat → Nat → List (Particle K) × Nat
  | 0, _, c => ([], c)
  | n + 1, i, c =>
    let p := newParticle rnd c w h i
    let rest := initParticles rnd w h n (i + 1) p.2
    (p.1 :: rest.1, rest.2)

/-- The snapshot entry of a particle (line 150). -/
def snapOf (p : Particle K) : Snap K := ⟨p.x, p.y, p.size, p.col⟩

/-- The flow vector `field[fy] && field[fy][fx] ? field[fy][fx] : [0,0]`. -/
def fieldAt (field : List (List (K × K))) (fy fx : Int) : K × K :=
  if fy < 0 ∨ fx < 0 then (0, 0)
  else match cellAt field fy.toNat fx.toNat with
    | some f => f
    | none => (0, 0)

/-- The wraparound of lines 163-166 on one axis: the negative branch
`w + (x % w)`, then `x % w` when `x >= w`. -/
def wrap (x w : K) : K :=
  let x1 := if x < 0 then w + jsRem x w else x
  if x1 ≥ w then jsRem x1 w else x1

/-- The respawn of lines 168-171: nine draws. -/
def respawn (rnd : Nat → K) (c : Nat) (w h : K) (p : Particle K) : Particle K × Nat :=
  ({ id := p.id
     x := rnd c * w
     y := rnd (c + 1) * h
     life := Int.floor (30 + rnd (c + 2) * 600)
     vx := (rnd (c + 3) - 1 / 2) * 2
     vy := (rnd (c + 4) - 1 / 2) * 2
     col := [Int.floor (rnd (c + 5) * 255), Int.floor (rnd (c + 6) * 255),
             Int.floor (rnd (c + 7) * 255)]
     size := 1 / 2 + rnd (c + 8) * 3 }, c + 9)

/-- The body of the loop of lines 152-173 for one particle.  `amb` is the
sequence of values of `Math.random()` and `ca` its cursor; `rnd`, `c` are the
seeded stream.  `none` when `field[0].length` throws on an empty `field`. -/
def stepParticle (rnd amb : Nat → K) (w h : K) (field : List (List (K × K)))
    (p : Particle K) (c ca : Nat) : Option (Particle K × Nat × Nat) :=
  let kick := amb ca < 2 / 1000
  let vx0 := if kick then p.vx + (rnd c - 1 / 2) * 4 else p.vx
  let vy0 := if kick then p.vy + (rnd (c + 1) - 1 / 2) * 4 else p.vy
  let c1 := if kick then c + 2 else c
  match field.head? with
  | none => none
  | some row0 =>
    let fx := Int.floor (clamp (Int.floor p.x : K) 0 ((row0.length : K) - 1))
    let fy := Int.floor (clamp (Int.floor p.y : K) 0 ((field.length : K) - 1))
    let f := fieldAt field fy fx
    let vx1 := vx0 + f.1 * (1 / 2)
    let vy1 := vy0 + f.2 * (1 / 2)
    let x1 := p.x + vx1 * (1 / 2)
    let y1 := p.y + vy1 * (1 / 2)
    let vx2 := vx1 * (98 / 100)
    let vy2 := vy1 * (98 / 100)
    let life := p.life - 1
    let q : Particle K := ⟨p.id, wrap x1 w, wrap y1 h, vx2, vy2, life, p.col, p.size⟩
    if life ≤ 0 then
      let r := respawn rnd c1 w h q
      some (r.1, r.2, ca + 1)
    else some (q, c1, ca + 1)

/-- The loop `for(let p of particles)` of one frame. -/
def stepAll (rnd amb : Nat → K) (w h : K) (field : List (List (K × K))) :
    List (Particle K) → Nat → Nat → Option (List (Particle K) × Nat × Nat)
  | [], c, ca => some ([], c, ca)
  | p :: ps, c, ca =>
    match stepParticle rnd amb w h field p c ca with
    | none => none
    | some r =>
      match stepAll rnd amb w h field ps r.2.1 r.2.2 with
      | none => none
      | some rs => some (r.1 :: rs.1, rs.2.1, rs.2.2)

/-- The loop of lines 149-174 with `n` frames left: the snapshot is pushed,
then every particle is advanced. -/
def frames (rnd amb : Nat → K) (w h : K) (field : List (List (K × K))) :
    Nat → List (Particle K) → Nat → Nat → Option (List (List (Snap K)))
  | 0, _, _, _ => some []
  | n + 1, ps, c, ca =>
    match stepAll rnd amb w h field ps c ca with
    | none => none
    | some r =>
      match frames rnd amb w h field n r.1 r.2.1 r.2.2 with
      | none => none
      | some rest => some (ps.map snapOf :: rest)

/-- Source `particleSystem(w, h, count, field)` with the seeded stream `rnd` at cursor
`c` and the values `amb` of `Math.random()` at cursor `ca`: the 120 snapshots,
or `none` when the source throws. -/
def particleSystem (rnd amb : Nat → K) (c ca : Nat) (w h : K) (count : Nat)
    (field : List (List (K × K))) : Option (List (List (Snap K))) :=
  let ps := initParticles rnd w h count 0 c
  frames rnd amb w h field 120 ps.1 ps.2 ca

end Particles

section Bounds

/-- The position of a particle is inside `[0,w) × [0,h)`. -/
def InBounds {K : Type} [LinearOrderedField K] (w h : K) (x y : K) : Prop :=
  0 ≤ x ∧ x < w ∧ 0 ≤ y ∧ y < h

end Bounds

/-! ## Gradient noise -/

section Noise

variable {K : Type} [LinearOrderedField K] [FloorRing K]

/-- The object `grad`: the gradients stored so far, latest first.  The key
`i,j` of two integers is the pair `(i, j)`. -/
abbrev GradCache (K : Type) := List ((Int × Int) × (K × K))

/-- The read `grad[k]`. -/
def gradGet (grad : GradCache K) (i j : Int) : Option (K × K) :=
  match grad.find? (fun e => e.1 == (i, j)) with
  | some e => some e.2
  | none => none

/-- The closure `g(i, j)` (lines 93-99): the cached gradient, or a new one
`[cos a, sin a]` with `a = rnd()*Math.PI*2`, which is stored. -/
def g (cs sn : K → K) (pi : K) (rnd : Nat → K) (grad : GradCache K) (c : Nat) (i j : Int) :
    (K × K) × GradCache K × Nat :=
  match gradGet grad i j with
  | some v => (v, grad, c)
  | none =>
    let a := rnd c * pi * 2
    ((cs a, sn a), ((i, j), (cs a, sn a)) :: grad, c + 1)

/-- Source `fade(t) = t*t*t*(t*(t*6-15)+10)`. -/
def fade (t : K) : K := t * t * t * (t * (t * 6 - 15) + 10)

/-- The value `gvec[0]*dx + gvec[1]*dy` of `dot(ix, iy, px, py)` for the
gradient `gvec = g(ix, iy)`. -/
def dot (gvec : K × K) (ix iy : Int) (px py : K) : K :=
  gvec.1 * (px - (ix : K)) + gvec.2 * (py - (iy : K))

/-- The state of the loop of `perlinNoise`: the grid, the cache and the cursor. -/
structure NoiseState (K : Type) where
  grid : List (List K)
  grad : GradCache K
  c : Nat

/-- The interpolated value `v` of line 118 at cell `(x, y)`, with the cache and
cursor after the four calls of `g`. -/
def noiseValue (cs sn : K → K) (pi : K) (rnd : Nat → K) (w h : Nat) (freq : K)
    (grad : GradCache K) (c : Nat) (x y : Nat) : K × GradCache K × Nat :=
  let fx := (x : K) / (w : K) * freq
  let fy := (y : K) / (h : K) * freq
  let x0 := Int.floor fx
  let y0 := Int.floor fy
  let x1 := x0 + 1
  let y1 := y0 + 1
  let sx := fade (fx - (x0 : K))
  let sy := fade (fy - (y0 : K))
  let g0 := g cs sn pi rnd grad c x0 y0
  let n0 := dot g0.1 x0 y0 fx fy
  let g1 := g cs sn pi rnd g0.2.1 g0.2.2 x1 y0
  let n1 := dot g1.1 x1 y0 fx fy
  let ix0 := n0 + (n1 - n0) * sx
  let g2 := g cs sn pi rnd g1.2.1 g1.2.2 x0 y1
  let n2 := dot g2.1 x0 y1 fx fy
  let g3 := g cs sn pi rnd g2.2.1 g2.2.2 x1 y1
  let n3 := dot g3.1 x1 y1 fx fy
  let ix1 := n2 + (n3 - n2) * sx
  (ix0 + (ix1 - ix0) * sy, g3.2.1, g3.2.2)

/-- The body of the loop of lines 101-120: `grid[y][x] = (v*amp+1)/2`. -/
def noiseCell (cs sn : K → K) (pi : K) (rnd : Nat → K) (w h : Nat) (freq amp : K)
    (s : NoiseState K) (x y : Nat) : NoiseState K :=
  let r := noiseValue cs sn pi rnd w h freq s.grad s.c x y
  ⟨setCell s.grid y x ((r.1 * amp + 1) / 2), r.2.1, r.2.2⟩

/-- The value of `opts.f || d`: `d` when the option is missing or zero. -/
def orDefault (o : Option K) (d : K) : K :=
  match o with
  | some v => if v = 0 then d else v
  | none => d

/-- Source `perlinNoise(w, h, opts)`, where `opts` has the optional `freq` and
`amp`, with the stream at cursor `c`: the grid and the new cursor. -/
def perlinNoise (cs sn : K → K) (pi : K) (rnd : Nat → K) (c : Nat) (w h : Nat)
    (optFreq optAmp : Option K) : List (List K) × Nat :=
  let freq := orDefault optFreq 6
  let amp := orDefault optAmp 1
  let s := forCells w h (noiseCell cs sn pi rnd w h freq amp)
    ⟨makeGrid w h (fun _ _ => 0), [], c⟩
  (s.grid, s.c)

/-- Source `flowField(w, h, scale)`: the unit vector of angle `n[y][x]*Math.PI*2` in
every cell; the reads `n[y][x]` are inside the grid `perlinNoise` returns. -/
def flowField (cs sn : K → K) (pi : K) (rnd : Nat → K) (c : Nat) (w h : Nat) (scale : K) :
    List (List (K × K)) × Nat :=
  let n := perlinNoise cs sn pi rnd c w h (some scale) (some 1)
  (forCells w h (fun out x y =>
      match cellAt n.1 y x with
      | some v => setCell out y x (cs (v * pi * 2), sn (v * pi * 2))
      | none => out)
    (makeGrid w h (fun _ _ => ((0 : K), (0 : K)))), n.2)

/-- Every gradient stored in the cache is a unit vector. -/
def UnitCache {K : Type} [LinearOrderedField K] (grad : GradCache K) : Prop :=
  ∀ e ∈ grad, e.2.1 ^ 2 + e.2.2 ^ 2 = 1

end Noise

/-! ## Convolution -/

section Convolve

variable {K : Type} [LinearOrderedField K] [FloorRing K]

/-- The update `s += a * b` of line 79, where `none` is NaN: a missing grid or
kernel cell is `undefined`, and the sum stays NaN from then on. -/
def accumulate (s a b : Option K) : Option K :=
  match s, a, b with
  | some sv, some av, some bv => some (sv + av * bv)
  | _, _, _ => none

/-- Lines 75-80: the sum `s` for cell `(x, y)`, over `ky` outside and `kx`
inside, with the guard `gx>=0 && gy>=0 && gx<w && gy<h`. -/
def convolveCell (grid kernel : List (List K)) (w h kw kh : Nat) (ox oy : Nat) (x y : Nat) :
    Option K :=
  forCells kw kh (fun s kx ky =>
    let gx : Int := (x : Int) + (kx : Int) - (ox : Int)
    let gy : Int := (y : Int) + (ky : Int) - (oy : Int)
    if gx ≥ 0 ∧ gy ≥ 0 ∧ gx < (w : Int) ∧ gy < (h : Int) then
      accumulate s (cellAt grid gy.toNat gx.toNat) (cellAt kernel ky kx)
    else s) (some 0)

/-- Source `convolve(grid, kernel)`; `none` when `grid[0].length` or
`kernel[0].length` throws.  A cell of the result is `some v`, or `none` for
NaN. -/
def convolve (grid kernel : List (List K)) : Option (List (List (Option K))) :=
  match grid, kernel with
  | row0 :: _, krow0 :: _ =>
    let h := grid.length
    let w := row0.length
    let kh := kernel.length
    let kw := krow0.length
    let ox := kw / 2
    let oy := kh / 2
    some (forCells w h
      (fun out x y => setCell out y x (convolveCell grid kernel w h kw kh ox oy x y))
      (makeGrid w h (fun _ _ => some 0)))
  | _, _ => none

end Convolve

/-! ## Shuffle -/

section Shuffle

variable {K : Type} [LinearOrderedField K] [FloorRing K]

/-- The read `a[j]` of an array whose elements may be `undefined` (`none`); an
index outside the array reads `undefined`. -/
def arrRead {β : Type} (a : List (Option β)) (j : Int) : Option β :=
  if j < 0 then none
  else match a.get? j.toNat with
    | some v => v
    | none => none

/-- The write `a[j] = v`: inside the array the element is replaced, past the
end the array grows with holes, and a negative `j` names a property that is
not an element. -/
def arrWrite {β : Type} (a : List (Option β)) (j : Int) (v : Option β) : List (Option β) :=
  if j < 0 then a
  else if j.toNat < a.length then a.set j.toNat v
  else a ++ List.replicate (j.toNat - a.length) none ++ [v]

/-- The index `j = Math.floor(rnd()*(i+1))` of line 27 for the stream value `r`. -/
def swapIndex (r : K) (i : Nat) : Int := Int.floor (r * ((i : K) + 1))

/-- Lines 27-28 for one `i`: `[a[i],a[j]] = [a[j],a[i]]` reads both elements,
then writes `a[i]`, then `a[j]`. -/
def shuffleStep {β : Type} (rnd : Nat → K) (a : List (Option β)) (c : Nat) (i : Nat) :
    List (Option β) × Nat :=
  let j := swapIndex (rnd c) i
  let ai := arrRead a (i : Int)
  let aj := arrRead a j
  (arrWrite (arrWrite a (i : Int) aj) j ai, c + 1)

/-- The loop `for(let i=...;i>0;i--)` of `shuffle`, entered with `i`. -/
def shuffleLoop {β : Type} (rnd : Nat → K) : Nat → List (Option β) → Nat → List (Option β) × Nat
  | 0, a, c => (a, c)
  | i + 1, a, c =>
    let s := shuffleStep rnd a c (i + 1)
    shuffleLoop rnd i s.1 s.2

/-- Source `shuffle(a)` with the stream at cursor `c`: the array after the call
and the new cursor. -/
def shuffle {β : Type} (rnd : Nat → K) (c : Nat) (a : List (Option β)) :
    List (Option β) × Nat :=
  shuffleLoop rnd (a.length - 1) a c

end Shuffle

/-! ## Text utilities -/

/-- The UTF-16 code units of a character: itself below `0x10000`, else a
surrogate pair. -/
def utf16Units (ch : Char) : List Nat :=
  if ch.toNat < 65536 then [ch.toNat]
  else [55296 + (ch.toNat - 65536) / 1024, 56320 + (ch.toNat - 65536) % 1024]

/-- The code units `s.charCodeAt(i)` for `i < s.length`. -/
def codeUnits (s : List Char) : List Nat := s.flatMap utf16Units

/-- The base-16 digits of `n` in front of `acc`, most significant first. -/
def digits16 : Nat → Nat → List Char → List Char
  | 0, _, acc => acc
  | fuel + 1, n, acc =>
    if n / 16 = 0 then digit36 (n % 16) :: acc
    else digits16 fuel (n / 16) (digit36 (n % 16) :: acc)

/-- Source `n.toString(16)` of a non-negative integer. -/
def toString16 (n : Nat) : List Char := digits16 (n + 1) n []

/-- The body of the loop of `hashStr` (lines 255-256) for the code unit `cu`:
`h ^= cu; h = Math.imul(h, 16777619) >>> 0`. -/
def hashStep (h : Int) (cu : Nat) : Int :=
  Int.ofNat (toUint32 (imul (jsXor h (Int.ofNat cu)) 16777619))

/-- The value of `h` when the loop of `hashStr` ends; it starts at
`2166136261 >>> 0`. -/
def hashWord (s : List Char) : Int :=
  (codeUnits s).foldl hashStep (Int.ofNat (toUint32 2166136261))

/-- Source `hashStr(s)`: `(h>>>0).toString(16)`. -/
def hashStr (s : List Char) : List Char := toString16 (toUint32 (hashWord s))

/-- The reference FNV-1a 32-bit hash in the words of the specification: `h`
starts at 2166136261 and each byte `b` updates `h` to
`((h xor b) * 16777619) mod 2^32`. -/
def fnv1a32 (bytes : List Nat) : Nat :=
  bytes.foldl (fun h b => ((h ^^^ b) * 16777619) % 4294967296) 2166136261

/-- The lowercase hexadecimal rendering of `n` in the words of the
specification: the base-16 digits of `n`, most significant first and with no
leading zero, written with `0`-`9` and `a`-`f`; zero is the single digit `0`. -/
def hexRender (n : Nat) : List Char :=
  if n = 0 then ['0']
  else (Nat.digits 16 n).reverse.map
    (fun d => ['0', '1', '2', '3', '4', '5', '6', '7', '8', '9',
      'a', 'b', 'c', 'd', 'e', 'f'].getD d '0')

/-- The character-wise substitution in the words of the specification: each
character `c` is replaced by `rules[c]` when it has a rule and is left
unchanged otherwise. -/
def substitute (rules : Char → Option (List Char)) (s : List Char) : List Char :=
  s.flatMap fun ch => (rules ch).getD [ch]

section Entropy

variable {K : Type} [LinearOrderedField K] [FloorRing K]

/-- The update `freq[ch] = (freq[ch]||0)+1` on the object `freq`, kept as its
entries in insertion order. -/
def freqAdd : List (Char × Nat) → Char → List (Char × Nat)
  | [], ch => [(ch, 1)]
  | (k, n) :: rest, ch => if k = ch then (k, n + 1) :: rest else (k, n) :: freqAdd rest ch

/-- The entries in the order `for(let k in freq)` visits them: the keys that
are array indices (`0` to `9`) in ascending order, then the other keys in
insertion order. -/
def forInOrder (freq : List (Char × Nat)) : List (Char × Nat) :=
  ['0', '1', '2', '3', '4', '5', '6', '7', '8', '9'].filterMap
      (fun d => freq.find? (fun e => e.1 == d))
    ++ freq.filter (fun e => !e.1.isDigit)

/-- Source `textEntropy(s)` with `Math.log2` as `log2`: the loop
`for(let ch of s)` visits characters, `s.length` counts code units. -/
def textEntropy (log2 : K → K) (s : List Char) : K :=
  let freq := s.foldl freqAdd []
  let n := (codeUnits s).length
  (forInOrder freq).foldl
    (fun H e => H - ((e.2 : K) / (n : K)) * log2 ((e.2 : K) / (n : K))) 0

end Entropy

/-! # Theorems -/

/-! ## 32-bit words -/

theorem toUint32_lt (n : Int) : toUint32 n < 4294967296 := by
  unfold toUint32; omega

theorem toUint32_toInt32 (n : Int) : toUint32 (toInt32 n) = toUint32 n := by
  unfold toUint32 toInt32
  simp only
  split <;> congr 1 <;> omega

theorem toUint32_ofNat (m : Nat) (h : m < 4294967296) : toUint32 (Int.ofNat m) = m := by
  unfold toUint32
  simp only [Int.ofNat_eq_coe]
  omega

theorem toUint32_cast (n : Int) : ((toUint32 n : Nat) : Int) = n % 4294967296 := by
  unfold toUint32; omega

theorem toInt32_emod (n : Int) : toInt32 n % 4294967296 = n % 4294967296 := by
  unfold toInt32
  simp only
  split <;> omega

theorem toUint32_congr {a b : Int} (h : a % 4294967296 = b % 4294967296) :
    toUint32 a = toUint32 b := by
  unfold toUint32; rw [h]

theorem xor_lt_word (a b : Nat) (ha : a < 4294967296) (hb : b < 4294967296) :
    a ^^^ b < 4294967296 := by
  have := Nat.xor_lt_two_pow (n := 32) (x := a) (y := b) (by simpa using ha) (by simpa using hb)
  simpa using this

theorem shr_lt_word (a k : Nat) (ha : a < 4294967296) : a >>> k < 4294967296 := by
  rw [Nat.shiftRight_eq_div_pow]
  exact lt_of_le_of_lt (Nat.div_le_self _ _) ha

theorem toUint32_add (a b : Int) :
    toUint32 (a + b) = (toUint32 a + toUint32 b) % 4294967296 := by
  unfold toUint32; omega

theorem toUint32_natCast (m : Nat) : toUint32 (m : Int) = m % 4294967296 := by
  unfold toUint32; omega

theorem toUint32_imul (a b : Int) :
    toUint32 (imul a b) = (toUint32 a * toUint32 b) % 4294967296 := by
  unfold imul
  rw [toUint32_toInt32]
  have h : (toInt32 a * toInt32 b) % 4294967296
      = (((toUint32 a * toUint32 b : Nat) : Int)) % 4294967296 := by
    rw [Int.mul_emod, toInt32_emod, toInt32_emod, Nat.cast_mul, Int.mul_emod (toUint32 a : Int),
      toUint32_cast, toUint32_cast, Int.emod_emod_of_dvd _ (dvd_refl _),
      Int.emod_emod_of_dvd _ (dvd_refl _)]
  rw [toUint32_congr h, toUint32_natCast]

theorem toUint32_jsXor (a b : Int) : toUint32 (jsXor a b) = toUint32 a ^^^ toUint32 b := by
  unfold jsXor
  rw [toUint32_toInt32]
  exact toUint32_ofNat _ (xor_lt_word _ _ (toUint32_lt _) (toUint32_lt _))

theorem toUint32_ushr (a : Int) (k : Nat) :
    toUint32 (Int.ofNat (ushr a k)) = toUint32 a >>> (k % 32) := by
  unfold ushr
  exact toUint32_ofNat _ (shr_lt_word _ _ (toUint32_lt _))

theorem rngStep_word (s : Int) : toUint32 (rngStep s) = rngStepWord (toUint32 s) := by
  unfold rngStep rngStepWord
  simp only
  rw [toUint32_toInt32, toUint32_add, toUint32_jsXor, toUint32_ushr, toUint32_toInt32,
    toUint32_imul]
  have e1 : toUint32 48271 = 48271 := by decide
  have e2 : toUint32 2147483647 = 2147483647 := by decide
  rw [e1, e2]

/-! ## The stream `rng` -/

theorem rngOut_succ (seed : Int) (n : Nat) :
    rngOut (rngState seed (n + 1)) = rngStepWord (rngOut (rngState seed n)) := by
  unfold rngOut
  rw [rngState, rngStep_word]

/-- C10: for every seed and every `n ≥ 1`, the `n`-th value of `rng(seed)` is
`k / 2^32` for an integer `0 ≤ k < 2^32`, so it lies in `[0,1)`; `k` is the
state read as an unsigned word, and that word is obtained from the previous one
by the update on 32-bit words (multiply by 48271, xor with the unsigned shift
by 13, add `0x7fffffff`, modulo `2^32`). -/
theorem rng_value_range (seed : Int) (n : Nat) (hn : 1 ≤ n) :
    ∃ k : Nat, k < 4294967296 ∧ rngValue seed n = (k : ℚ) / 4294967296 ∧
      0 ≤ rngValue seed n ∧ rngValue seed n < 1 ∧
      k = rngStepWord (rngOut (rngState seed (n - 1))) := by
  obtain ⟨m, rfl⟩ : ∃ m, n = m + 1 := ⟨n - 1, by omega⟩
  have hk : rngOut (rngState seed (m + 1)) < 4294967296 := toUint32_lt _
  refine ⟨rngOut (rngState seed (m + 1)), hk, rfl, ?_, ?_, ?_⟩
  · unfold rngValue
    exact div_nonneg (Nat.cast_nonneg _) (by norm_num)
  · unfold rngValue
    rw [div_lt_one (by norm_num)]
    exact_mod_cast hk
  · rw [rngOut_succ]
    rfl

theorem rng_value_range_witness :
    ∃ k : Nat, k < 4294967296 ∧ rngValue 1 1 = (k : ℚ) / 4294967296 ∧
      0 ≤ rngValue 1 1 ∧ rngValue 1 1 < 1 ∧
      k = rngStepWord (rngOut (rngState 1 (1 - 1))) :=
  rng_value_range 1 1 (by decide)

/-! ## `mirror` -/

/-- C1: on the one-row grid `[[1, 2]]` of width 2, `mirror` returns `[[1, 2]]`:
column 1 keeps the source value 2, while the value of the smaller-index
column `min 1 (2 - 1 - 1) = 0` of the source is 1. -/
theorem mirror_keeps_right_column :
    mirror [[1, 2]] = some [[some 1, some 2]] ∧
      cellAt [[1, 2]] 0 (min 1 (2 - 1 - 1)) = some 1 := by
  decide

/-! ## `weightedPick` -/

theorem weightedPickLoop_pos {F : Type} [LinearOrder F] [Zero F] {β : Type}
    (sub : F → F → F) (hsub : ∀ x w : F, w ≤ 0 → x ≤ sub x w) (as : List β) :
    ∀ (ws : List F) (x : F), (∀ wt ∈ ws, wt ≤ 0) → 0 < x →
      weightedPickLoop sub as ws x = none := by
  induction as with
  | nil => intro ws x _ _; cases ws <;> rfl
  | cons a as ih =>
    intro ws x hw hx
    cases ws with
    | nil => rfl
    | cons wt ws =>
      have hwt : wt ≤ 0 := hw wt (List.mem_cons_self _ _)
      have hx1 : 0 < sub x wt := lt_of_lt_of_le hx (hsub x wt hwt)
      simp only [weightedPickLoop, not_le.mpr hx1, if_false]
      exact ih ws (sub x wt) (fun v hv => hw v (List.mem_cons_of_mem _ hv)) hx1

theorem foldl_add_eq_sum {K : Type} [LinearOrderedField K] (ws : List K) (a : K) :
    ws.foldl (fun a b => a + b) a = a + ws.sum := by
  induction ws generalizing a with
  | nil => simp
  | cons wt ws ih => simp [List.foldl_cons, ih, add_assoc]

/-- With non-positive weights the first test of the loop decides the result:
once the remainder is positive it stays positive. -/
theorem weightedPick_first_or_last {F : Type} [LinearOrder F] [Zero F] {β : Type}
    (add mul sub : F → F → F) (hsub : ∀ x w : F, w ≤ 0 → x ≤ sub x w) (rnd : Nat → F)
    (c : Nat) (a : β) (as : List β) (w0 : F) (ws : List F) (hw : ∀ wt ∈ w0 :: ws, wt ≤ 0) :
    (weightedPick add mul sub rnd c (a :: as) (w0 :: ws)).1 =
      if sub (mul (rnd c) ((w0 :: ws).foldl (fun a b => add a b) 0)) w0 ≤ 0 then some a
      else (a :: as).getLast? := by
  unfold weightedPick
  simp only [weightedPickLoop]
  by_cases h : sub (mul (rnd c) ((w0 :: ws).foldl (fun a b => add a b) 0)) w0 ≤ 0
  · rw [if_pos h, if_pos h]
  · rw [if_neg h, if_neg h,
      weightedPickLoop_pos sub hsub as ws _ (fun v hv => hw v (List.mem_cons_of_mem _ hv))
        (not_le.mp h)]

/-- C4 (amended): for a non-empty list `a :: as`, weights `w0 :: ws` of the same
length that are all `≤ 0`, and the stream value `r = rnd c` in `[0,1)`,
`weightedPick` returns the first element when the first remainder
`r * sum - w0`, as the arithmetic in use computes it, is `≤ 0`, and the last
element otherwise.  The arithmetic is any in which subtracting a non-positive
number does not make a number smaller: exact arithmetic, and the rounded
arithmetic of binary64. -/
theorem weightedPick_nonpos {F : Type} [LinearOrder F] [Zero F] [One F] {β : Type}
    (add mul sub : F → F → F) (hsub : ∀ x w : F, w ≤ 0 → x ≤ sub x w) (rnd : Nat → F)
    (c : Nat) (a : β) (as : List β) (w0 : F) (ws : List F)
    (_hlen : (w0 :: ws).length = (a :: as).length)
    (hw : ∀ wt ∈ w0 :: ws, wt ≤ 0) (_hr : 0 ≤ rnd c ∧ rnd c < 1) :
    (weightedPick add mul sub rnd c (a :: as) (w0 :: ws)).1 =
      if sub (mul (rnd c) ((w0 :: ws).foldl (fun a b => add a b) 0)) w0 ≤ 0 then some a
      else (a :: as).getLast? :=
  weightedPick_first_or_last add mul sub hsub rnd c a as w0 ws hw

theorem weightedPick_nonpos_witness :
    (weightedPick (fun a b => a + b) (fun a b => a * b) (fun a b => a - b)
        (fun _ => (1 / 2 : ℚ)) 0 ['a', 'b'] [-1, -1]).1 =
      if (1 / 2 : ℚ) * (([-1, -1] : List ℚ).foldl (fun a b => a + b) 0) - (-1) ≤ 0
      then some 'a' else ['a', 'b'].getLast? :=
  weightedPick_nonpos (fun a b => a + b) (fun a b => a * b) (fun a b => a - b)
    (by intro x w hw; show x ≤ x - w; linarith) (fun _ => (1 / 2 : ℚ)) 0 'a' ['b'] (-1) [-1] rfl
    (by intro wt hwt; simp at hwt; subst hwt; norm_num)
    (by norm_num)

/-- In exact arithmetic the first remainder is `≤ 0` exactly when
`r * sum ≤ w0`; in particular all-zero weights give the first element. -/
theorem weightedPick_nonpos_exact {K : Type} [LinearOrderedField K] {β : Type}
    (rnd : Nat → K) (c : Nat) (a : β) (as : List β) (w0 : K) (ws : List K)
    (hw : ∀ wt ∈ w0 :: ws, wt ≤ 0) :
    (weightedPick (fun a b => a + b) (fun a b => a * b) (fun a b => a - b) rnd c
        (a :: as) (w0 :: ws)).1 =
      if rnd c * (w0 :: ws).sum ≤ w0 then some a else (a :: as).getLast? := by
  rw [weightedPick_first_or_last _ _ _ (by intro x w hw; show x ≤ x - w; linarith) rnd c a as w0 ws hw]
  simp only [foldl_add_eq_sum, zero_add, sub_nonpos]

/-- C4 (counterexample): with `arr = ['a','b']`, weights `[-1,-1]` and the
first value of `rng(1)`, which is `2147531913 / 2^32`, `weightedPick` returns
`'a'`, not the last element `'b'`. -/
theorem weightedPick_nonpos_not_last :
    (∀ wt ∈ ([-1, -1] : List ℚ), wt ≤ 0) ∧ 0 ≤ rngStream 1 0 ∧ rngStream 1 0 < 1 ∧
      (weightedPick (fun a b => a + b) (fun a b => a * b) (fun a b => a - b)
        (rngStream 1) 0 ['a', 'b'] [-1, -1]).1 = some 'a' ∧
      ['a', 'b'].getLast? = some 'b' := by
  have hv : rngStream 1 0 = 2147531913 / 4294967296 := by
    have : rngOut (rngState 1 1) = 2147531913 := by rfl
    simp only [rngStream, rngValue, this]
    norm_num
  refine ⟨?_, ?_, ?_, ?_, rfl⟩
  · intro wt hwt
    simp at hwt
    subst hwt
    norm_num
  · rw [hv]; norm_num
  · rw [hv]; norm_num
  · simp only [weightedPick, weightedPickLoop, List.foldl_cons, List.foldl_nil, hv]
    norm_num

/-! ## `cellularAutomaton` -/

/-- C2 (amended): for every `w`, `h` and every state of the stream,
`cellularAutomaton(w, h, 0, ruleSeed)` returns the empty sequence: no snapshot
is pushed when the loop runs zero times. -/
theorem cellularAutomaton_zero_iter {K : Type} [LinearOrderedField K] (rnd : Nat → K) (c w h : Nat) (ruleSeed : Int) :
    (cellularAutomaton rnd c w h 0 ruleSeed).1 = [] := by
  rfl

/-- C2 (counterexample): with `w = h = 1`, zero iterations and the stream
`rng(1)`, the sequence returned does not hold exactly one grid. -/
theorem cellularAutomaton_zero_iter_not_single :
    ¬ ((cellularAutomaton (rngStream 1) 0 1 1 0 0).1.length = 1) := by
  simp [cellularAutomaton, caLoop]

/-! ## `lsystem` -/

/-- C5: on the string `[`, whose bracket has no match, `lsystem` returns the
start point followed by the record `['P', 0, 0, 0]`, which is not a point. -/
theorem lsystem_unmatched_bracket {K : Type} [LinearOrderedField K] (cs sn : K → K) (pi angle step : K)
    (rules : Char → Option (List Char)) :
    lsystem cs sn pi 0 ['['] rules angle step
      = [PathEntry.point 0 0, PathEntry.marker 0 0 0] := by
  simp [lsystem, expand, interpret, turtleStep]

/-- C6: on the string `F[+F]F` with balanced brackets, `lsystem` returns four
entries, not `1 + 3 + 1 = 5`: the point of the move between the brackets is
popped at `]` and is not in the result. -/
theorem lsystem_branch_points_dropped {K : Type} [LinearOrderedField K] (cs sn : K → K) (pi angle step : K)
    (rules : Char → Option (List Char)) :
    lsystem cs sn pi 0 ['F', '[', '+', 'F', ']', 'F'] rules angle step
      = [PathEntry.point 0 0, PathEntry.point (0 + cs 0 * step) (0 + sn 0 * step),
         PathEntry.point (0 + cs 0 * step) (0 + sn 0 * step),
         PathEntry.point (0 + cs 0 * step + cs 0 * step) (0 + sn 0 * step + sn 0 * step)] := by
  simp [lsystem, expand, interpret, turtleStep, popToMarker]

/-! ## Loops over a grid -/

theorem foldl_range_inv {σ : Type} (f : σ → Nat → σ) (P : Nat → σ → Prop) (s0 : σ) (n : Nat)
    (h0 : P 0 s0) (hstep : ∀ i s, i < n → P i s → P (i + 1) (f s i)) :
    P n ((List.range n).foldl f s0) := by
  induction n with
  | zero => simpa using h0
  | succ m ih =>
    rw [List.range_succ, List.foldl_append]
    exact hstep m _ (Nat.lt_succ_self m)
      (ih (fun i s hi hp => hstep i s (Nat.lt_succ_of_lt hi) hp))

/-- Invariant rule for the double loop: `P y x s` is the assertion before the
body runs at cell `(x, y)`. -/
theorem forCells_inv {σ : Type} (w h : Nat) (body : σ → Nat → Nat → σ)
    (P : Nat → Nat → σ → Prop) (s0 : σ) (h0 : P 0 0 s0)
    (hcell : ∀ y x s, y < h → x < w → P y x s → P y (x + 1) (body s x y))
    (hrow : ∀ y s, y < h → P y w s → P (y + 1) 0 s) :
    P h 0 (forCells w h body s0) := by
  unfold forCells
  refine foldl_range_inv _ (fun y s => P y 0 s) s0 h h0 ?_
  intro y s hy hp
  exact hrow y _ hy
    (foldl_range_inv (fun s x => body s x y) (fun x s => P y x s) s w hp
      (fun x s hx hq => hcell y x s hy hx hq))

theorem isGrid_makeGrid {β : Type} (w h : Nat) (f : Nat → Nat → β) :
    IsGrid w h (makeGrid w h f) := by
  constructor
  · simp [makeGrid]
  · intro row hrow
    simp only [makeGrid, List.mem_map, List.mem_range] at hrow
    obtain ⟨y, _, rfl⟩ := hrow
    simp

theorem cellAt_makeGrid {β : Type} (w h : Nat) (f : Nat → Nat → β) (y x : Nat)
    (hy : y < h) (hx : x < w) : cellAt (makeGrid w h f) y x = some (f x y) := by
  simp [cellAt, makeGrid, hy, hx]

theorem isGrid_setCell {β : Type} {w h : Nat} {g : List (List β)} (hg : IsGrid w h g)
    (y x : Nat) (v : β) : IsGrid w h (setCell g y x v) := by
  unfold setCell
  cases hrow : g.get? y with
  | none => simpa using hg
  | some row =>
    simp only
    refine ⟨by simpa using hg.1, ?_⟩
    intro r hr
    rcases List.mem_or_eq_of_mem_set hr with h1 | h1
    · exact hg.2 r h1
    · rw [h1, List.length_set]
      exact hg.2 row (List.get?_mem hrow)

theorem cellAt_setCell {β : Type} {w h : Nat} {g : List (List β)} (hg : IsGrid w h g)
    (y x : Nat) (v : β) (hy : y < h) (hx : x < w) (y' x' : Nat) :
    cellAt (setCell g y x v) y' x' = if y' = y ∧ x' = x then some v else cellAt g y' x' := by
  have hlen : y < g.length := by rw [hg.1]; exact hy
  have hrow : g.get? y = some g[y] := by simp [List.getElem?_eq_getElem hlen]
  have hw : g[y].length = w := hg.2 _ (List.getElem_mem _)
  unfold setCell
  rw [hrow]
  simp only [cellAt, List.get?_eq_getElem?]
  by_cases h1 : y' = y
  · subst h1
    rw [List.getElem?_set_self hlen]
    simp only [true_and]
    by_cases h2 : x' = x
    · subst h2
      rw [List.getElem?_set_self (by rw [hw]; exact hx)]
      simp
    · rw [List.getElem?_set_ne (Ne.symm h2)]
      simp [h2, List.getElem?_eq_getElem hlen]
  · rw [List.getElem?_set_ne (Ne.symm h1)]
    simp [h1]

theorem grid_ext {β : Type} {w h : Nat} {g1 g2 : List (List β)} (h1 : IsGrid w h g1)
    (h2 : IsGrid w h g2)
    (hc : ∀ y x, y < h → x < w → cellAt g1 y x = cellAt g2 y x) : g1 = g2 := by
  apply List.ext_getElem (by rw [h1.1, h2.1])
  intro y hy1 hy2
  have hw1 : g1[y].length = w := h1.2 _ (List.getElem_mem _)
  have hw2 : g2[y].length = w := h2.2 _ (List.getElem_mem _)
  apply List.ext_getElem (by rw [hw1, hw2])
  intro x hx1 hx2
  have := hc y x (by rw [← h1.1]; exact hy1) (by rw [← hw1]; exact hx1)
  simp only [cellAt, List.get?_eq_getElem?, List.getElem?_eq_getElem hy1,
    List.getElem?_eq_getElem hy2, List.getElem?_eq_getElem hx1,
    List.getElem?_eq_getElem hx2] at this
  exact Option.some.inj this

/-- A double loop that writes `f x y` into every cell of a `w`-by-`h` grid
leaves the grid `makeGrid w h f`. -/
theorem forCells_fill {β : Type} (w h : Nat) (f : Nat → Nat → β) (g : List (List β))
    (hg : IsGrid w h g) :
    forCells w h (fun g x y => setCell g y x (f x y)) g = makeGrid w h f := by
  have key := forCells_inv w h (fun g x y => setCell g y x (f x y))
    (fun y x g => IsGrid w h g ∧ ∀ y' x', y' < h → x' < w → (y' < y ∨ (y' = y ∧ x' < x)) →
      cellAt g y' x' = some (f x' y')) g
    ⟨hg, by intro y' x' _ _ hlt; omega⟩
    (by
      intro y x s hy hx ⟨hs, hdone⟩
      refine ⟨isGrid_setCell hs y x _, ?_⟩
      intro y' x' hy' hx' hlt
      rw [cellAt_setCell hs y x _ hy hx]
      by_cases hc : y' = y ∧ x' = x
      · rw [if_pos hc, hc.1, hc.2]
      · rw [if_neg hc]
        exact hdone y' x' hy' hx' (by omega))
    (by
      intro y s hy ⟨hs, hdone⟩
      exact ⟨hs, fun y' x' hy' hx' hlt => hdone y' x' hy' hx' (by omega)⟩)
  apply grid_ext key.1 (isGrid_makeGrid w h f)
  intro y x hy hx
  rw [key.2 y x hy hx (by omega), cellAt_makeGrid w h f y x hy hx]

/-! ## `cellularAutomaton`: generations -/

theorem makeGrid_congr {β : Type} (w h : Nat) (f f' : Nat → Nat → β)
    (hf : ∀ x y, x < w → y < h → f x y = f' x y) : makeGrid w h f = makeGrid w h f' := by
  unfold makeGrid
  apply List.map_congr_left
  intro y hy
  apply List.map_congr_left
  intro x hx
  exact hf x y (List.mem_range.mp hx) (List.mem_range.mp hy)

theorem caRead_makeGrid (w h : Nat) (f : Nat → Nat → Option Nat) (y x : Nat)
    (hy : y < h) (hx : x < w) : caRead (makeGrid w h f) y x = f x y := by
  unfold caRead
  rw [cellAt_makeGrid w h f y x hy hx]

theorem isGrid_caInit {K : Type} [LinearOrderedField K] (rnd : Nat → K) (c w h : Nat) :
    IsGrid w h (caInit rnd c w h).1 := by
  unfold caInit
  exact forCells_inv w h _ (fun _ _ (s : CAGrid × Nat) => IsGrid w h s.1) _
    (isGrid_makeGrid w h _) (fun y x s _ _ hs => isGrid_setCell hs y x _) (fun _ _ _ hs => hs)

theorem caStep_eq (rule : Rule) (w h : Nat) (a : CAGrid) (ha : IsGrid w h a) :
    caStep rule w h a = makeGrid w h (fun x y => ruleGet rule (caKey a w h x y)) := by
  unfold caStep
  simp only
  rw [forCells_fill w h _ _ (isGrid_makeGrid w h _), forCells_fill w h _ a ha]
  exact makeGrid_congr w h _ _ (fun x y hx hy => caRead_makeGrid w h _ y x hy hx)

theorem isGrid_caStep (rule : Rule) (w h : Nat) (a : CAGrid) (ha : IsGrid w h a) :
    IsGrid w h (caStep rule w h a) := by
  rw [caStep_eq rule w h a ha]
  exact isGrid_makeGrid w h _

theorem length_caLoop (rule : Rule) (w h n : Nat) (a : CAGrid) :
    (caLoop rule w h n a).length = n := by
  induction n generalizing a with
  | zero => rfl
  | succ m ih => simp [caLoop, ih]

theorem caLoop_get (rule : Rule) (w h n : Nat) (a : CAGrid) (t : Nat) (ht : t < n) :
    (caLoop rule w h n a).get? t = some ((caStep rule w h)^[t] a) := by
  induction n generalizing a t with
  | zero => omega
  | succ m ih =>
    cases t with
    | zero => simp [caLoop]
    | succ t =>
      simp only [caLoop, List.get?_cons_succ, Function.iterate_succ, Function.comp_apply]
      exact ih _ t (by omega)

theorem isGrid_iterate_caStep (rule : Rule) (w h : Nat) (a : CAGrid) (ha : IsGrid w h a)
    (t : Nat) : IsGrid w h ((caStep rule w h)^[t] a) := by
  induction t generalizing a with
  | zero => exact ha
  | succ t ih =>
    rw [Function.iterate_succ, Function.comp_apply]
    exact ih _ (isGrid_caStep rule w h a ha)

theorem caOffsets_bounds : ∀ d ∈ caOffsets, -1 ≤ d.1 ∧ -1 ≤ d.2 := by
  decide

/-- In `caKey` the truncated remainder is the mathematical one: the dividends
`x+dx+w` and `y+dy+h` are not negative. -/
theorem caKey_eq_mod (a : CAGrid) (w h x y : Nat) (hw : 1 ≤ w) (hh : 1 ≤ h) :
    caKey a w h x y = caOffsets.map (fun d =>
      caBit (caRead a ((((y : Int) + d.1 + (h : Int)) % (h : Int)).toNat)
        ((((x : Int) + d.2 + (w : Int)) % (w : Int)).toNat))) := by
  unfold caKey
  apply List.map_congr_left
  intro d hd
  have hb := caOffsets_bounds d hd
  simp only
  rw [Int.tmod_eq_emod (by omega) (by omega), Int.tmod_eq_emod (by omega) (by omega)]

/-- C7: for `w, h, iter ≥ 1`, `cellularAutomaton` returns exactly `iter` grids,
the first is the initial grid, and every cell `(x, y)` of grid `t+1` is
`rule[key]` for the key of the 3-by-3 toroidal neighbourhood of `(x, y)` in
grid `t`, read with `dy = -1,0,1` outside and `dx = -1,0,1` inside. -/
theorem cellularAutomaton_generations {K : Type} [LinearOrderedField K] (rnd : Nat → K)
    (c w h iter : Nat) (ruleSeed : Int) (hw : 1 ≤ w) (hh : 1 ≤ h) (hi : 1 ≤ iter) :
    (cellularAutomaton rnd c w h iter ruleSeed).1.length = iter ∧
    (cellularAutomaton rnd c w h iter ruleSeed).1.head? = some (caInit rnd c w h).1 ∧
    ∀ t, t + 1 < iter → ∃ a b,
      (cellularAutomaton rnd c w h iter ruleSeed).1.get? t = some a ∧
      (cellularAutomaton rnd c w h iter ruleSeed).1.get? (t + 1) = some b ∧
      ∀ x y, x < w → y < h →
        caRead b y x = ruleGet (caRule rnd (caInit rnd c w h).2).1 (caKey a w h x y) ∧
        caKey a w h x y = caOffsets.map (fun d =>
          caBit (caRead a ((((y : Int) + d.1 + (h : Int)) % (h : Int)).toNat)
            ((((x : Int) + d.2 + (w : Int)) % (w : Int)).toNat))) := by
  unfold cellularAutomaton
  simp only
  refine ⟨length_caLoop _ w h iter _, ?_, ?_⟩
  · obtain ⟨m, rfl⟩ : ∃ m, iter = m + 1 := ⟨iter - 1, by omega⟩
    rfl
  · intro t ht
    refine ⟨_, _, caLoop_get _ w h iter _ t (by omega), caLoop_get _ w h iter _ (t + 1) ht, ?_⟩
    intro x y hx hy
    refine ⟨?_, caKey_eq_mod _ w h x y hw hh⟩
    rw [Function.iterate_succ_apply',
      caStep_eq _ w h _ (isGrid_iterate_caStep _ w h _ (isGrid_caInit rnd c w h) t),
      caRead_makeGrid w h _ y x hy hx]

theorem cellularAutomaton_generations_witness :
    (cellularAutomaton (rngStream 1) 0 2 2 3 0).1.length = 3 ∧
    (cellularAutomaton (rngStream 1) 0 2 2 3 0).1.head? = some (caInit (rngStream 1) 0 2 2).1 ∧
    ∀ t, t + 1 < 3 → ∃ a b,
      (cellularAutomaton (rngStream 1) 0 2 2 3 0).1.get? t = some a ∧
      (cellularAutomaton (rngStream 1) 0 2 2 3 0).1.get? (t + 1) = some b ∧
      ∀ x y, x < 2 → y < 2 →
        caRead b y x = ruleGet (caRule (rngStream 1) (caInit (rngStream 1) 0 2 2).2).1
          (caKey a 2 2 x y) ∧
        caKey a 2 2 x y = caOffsets.map (fun d =>
          caBit (caRead a ((((y : Int) + d.1 + ((2 : Nat) : Int)) % ((2 : Nat) : Int)).toNat)
            ((((x : Int) + d.2 + ((2 : Nat) : Int)) % ((2 : Nat) : Int)).toNat))) :=
  cellularAutomaton_generations (rngStream 1) 0 2 2 3 0 (by decide) (by decide) (by decide)

/-! ## `particleSystem`: positions -/

theorem jsRem_neg_bounds {K : Type} [LinearOrderedField K] [FloorRing K] (x w : K)
    (hw : 0 < w) (hx : x < 0) : -w < jsRem x w ∧ jsRem x w ≤ 0 := by
  have hq : x / w < 0 := div_neg_of_neg_of_pos hx hw
  unfold jsRem
  simp only [if_neg (not_le.mpr hq)]
  have h1 : x / w ≤ (Int.ceil (x / w) : K) := Int.le_ceil _
  have h2 : (Int.ceil (x / w) : K) < x / w + 1 := Int.ceil_lt_add_one _
  have e : w * (x / w) = x := mul_div_cancel₀ x (ne_of_gt hw)
  have h3 : x ≤ w * (Int.ceil (x / w) : K) := by
    calc x = w * (x / w) := e.symm
      _ ≤ w * (Int.ceil (x / w) : K) := mul_le_mul_of_nonneg_left h1 (le_of_lt hw)
  have h4 : w * (Int.ceil (x / w) : K) < x + w := by
    calc w * (Int.ceil (x / w) : K) < w * (x / w + 1) := mul_lt_mul_of_pos_left h2 hw
      _ = x + w := by rw [mul_add, e, mul_one]
  constructor <;> linarith

theorem jsRem_nonneg_bounds {K : Type} [LinearOrderedField K] [FloorRing K] (x w : K)
    (hw : 0 < w) (hx : 0 ≤ x) : 0 ≤ jsRem x w ∧ jsRem x w < w := by
  have hq : 0 ≤ x / w := div_nonneg hx (le_of_lt hw)
  unfold jsRem
  simp only [if_pos hq]
  have h1 : (Int.floor (x / w) : K) ≤ x / w := Int.floor_le _
  have h2 : x / w < (Int.floor (x / w) : K) + 1 := Int.lt_floor_add_one _
  have e : w * (x / w) = x := mul_div_cancel₀ x (ne_of_gt hw)
  have h3 : w * (Int.floor (x / w) : K) ≤ x := by
    calc w * (Int.floor (x / w) : K) ≤ w * (x / w) := mul_le_mul_of_nonneg_left h1 (le_of_lt hw)
      _ = x := e
  have h4 : x < w * (Int.floor (x / w) : K) + w := by
    calc x = w * (x / w) := e.symm
      _ < w * ((Int.floor (x / w) : K) + 1) := mul_lt_mul_of_pos_left h2 hw
      _ = w * (Int.floor (x / w) : K) + w := by rw [mul_add, mul_one]
  constructor <;> linarith

/-- The wraparound leaves the coordinate in `[0, w)`, whatever it was. -/
theorem wrap_bounds {K : Type} [LinearOrderedField K] [FloorRing K] (x w : K) (hw : 0 < w) :
    0 ≤ wrap x w ∧ wrap x w < w := by
  unfold wrap
  simp only
  by_cases hx : x < 0
  · have hb := jsRem_neg_bounds x w hw hx
    rw [if_pos hx]
    by_cases h2 : w + jsRem x w ≥ w
    · rw [if_pos h2]
      exact jsRem_nonneg_bounds _ w hw (by linarith)
    · rw [if_neg h2]
      exact ⟨by linarith, not_le.mp h2⟩
  · rw [if_neg hx]
    by_cases h2 : x ≥ w
    · rw [if_pos h2]
      exact jsRem_nonneg_bounds _ w hw (not_lt.mp hx)
    · rw [if_neg h2]
      exact ⟨not_lt.mp hx, not_le.mp h2⟩

theorem draw_bounds {K : Type} [LinearOrderedField K] (r w : K) (hw : 0 < w)
    (hr : 0 ≤ r ∧ r < 1) : 0 ≤ r * w ∧ r * w < w := by
  constructor
  · exact mul_nonneg hr.1 (le_of_lt hw)
  · calc r * w < 1 * w := mul_lt_mul_of_pos_right hr.2 hw
      _ = w := one_mul w

theorem newParticle_inBounds {K : Type} [LinearOrderedField K] [FloorRing K] (rnd : Nat → K)
    (c : Nat) (w h : K) (i : Nat) (hw : 0 < w) (hh : 0 < h)
    (hr : ∀ i, 0 ≤ rnd i ∧ rnd i < 1) :
    InBounds w h (newParticle rnd c w h i).1.x (newParticle rnd c w h i).1.y := by
  have h1 := draw_bounds (rnd (c + 1)) w hw (hr _)
  have h2 := draw_bounds (rnd (c + 2)) h hh (hr _)
  exact ⟨h1.1, h1.2, h2.1, h2.2⟩

theorem initParticles_inBounds {K : Type} [LinearOrderedField K] [FloorRing K] (rnd : Nat → K)
    (w h : K) (hw : 0 < w) (hh : 0 < h) (hr : ∀ i, 0 ≤ rnd i ∧ rnd i < 1) (n : Nat) :
    ∀ i c, ∀ p ∈ (initParticles rnd w h n i c).1, InBounds w h p.x p.y := by
  induction n with
  | zero => intro i c p hp; simp [initParticles] at hp
  | succ n ih =>
    intro i c p hp
    simp only [initParticles, List.mem_cons] at hp
    rcases hp with rfl | hp
    · exact newParticle_inBounds rnd c w h i hw hh hr
    · exact ih _ _ p hp

theorem stepParticle_inBounds {K : Type} [LinearOrderedField K] [FloorRing K]
    (rnd amb : Nat → K) (w h : K) (field : List (List (K × K))) (hw : 0 < w) (hh : 0 < h)
    (hr : ∀ i, 0 ≤ rnd i ∧ rnd i < 1) (p : Particle K) (c ca : Nat)
    (r : Particle K × Nat × Nat) (hres : stepParticle rnd amb w h field p c ca = some r) :
    InBounds w h r.1.x r.1.y := by
  unfold stepParticle at hres
  cases hf : field.head? with
  | none => simp [hf] at hres
  | some row0 =>
    simp only [hf] at hres
    split at hres
    · rw [← Option.some.inj hres]
      exact ⟨(draw_bounds _ w hw (hr _)).1, (draw_bounds _ w hw (hr _)).2,
        (draw_bounds _ h hh (hr _)).1, (draw_bounds _ h hh (hr _)).2⟩
    · rw [← Option.some.inj hres]
      exact ⟨(wrap_bounds _ w hw).1, (wrap_bounds _ w hw).2,
        (wrap_bounds _ h hh).1, (wrap_bounds _ h hh).2⟩

theorem stepParticle_isSome {K : Type} [LinearOrderedField K] [FloorRing K]
    (rnd amb : Nat → K) (w h : K) (field : List (List (K × K))) (hf : field ≠ [])
    (p : Particle K) (c ca : Nat) : ∃ r, stepParticle rnd amb w h field p c ca = some r := by
  obtain ⟨row0, rest, rfl⟩ := List.exists_cons_of_ne_nil hf
  unfold stepParticle
  simp only [List.head?_cons]
  split <;> exact ⟨_, rfl⟩

theorem stepAll_inBounds {K : Type} [LinearOrderedField K] [FloorRing K]
    (rnd amb : Nat → K) (w h : K) (field : List (List (K × K))) (hw : 0 < w) (hh : 0 < h)
    (hr : ∀ i, 0 ≤ rnd i ∧ rnd i < 1) (ps : List (Particle K)) :
    ∀ c ca r, stepAll rnd amb w h field ps c ca = some r → ∀ p ∈ r.1, InBounds w h p.x p.y := by
  induction ps with
  | nil =>
    intro c ca r hres p hp
    simp only [stepAll, Option.some.injEq] at hres
    subst hres
    simp at hp
  | cons q qs ih =>
    intro c ca r hres p hp
    unfold stepAll at hres
    cases h1 : stepParticle rnd amb w h field q c ca with
    | none => simp [h1] at hres
    | some r1 =>
      simp only [h1] at hres
      cases h2 : stepAll rnd amb w h field qs r1.2.1 r1.2.2 with
      | none => simp [h2] at hres
      | some rs =>
        simp only [h2, Option.some.injEq] at hres
        subst hres
        simp only [List.mem_cons] at hp
        rcases hp with rfl | hp
        · exact stepParticle_inBounds rnd amb w h field hw hh hr q c ca r1 h1
        · exact ih _ _ rs h2 p hp

theorem stepAll_isSome {K : Type} [LinearOrderedField K] [FloorRing K]
    (rnd amb : Nat → K) (w h : K) (field : List (List (K × K))) (hf : field ≠ [])
    (ps : List (Particle K)) : ∀ c ca, ∃ r, stepAll rnd amb w h field ps c ca = some r := by
  induction ps with
  | nil => intro c ca; exact ⟨_, rfl⟩
  | cons q qs ih =>
    intro c ca
    obtain ⟨r1, h1⟩ := stepParticle_isSome rnd amb w h field hf q c ca
    obtain ⟨rs, h2⟩ := ih r1.2.1 r1.2.2
    exact ⟨(r1.1 :: rs.1, rs.2.1, rs.2.2), by simp only [stepAll, h1, h2]⟩

theorem frames_inBounds {K : Type} [LinearOrderedField K] [FloorRing K]
    (rnd amb : Nat → K) (w h : K) (field : List (List (K × K))) (hw : 0 < w) (hh : 0 < h)
    (hr : ∀ i, 0 ≤ rnd i ∧ rnd i < 1) (n : Nat) :
    ∀ ps c ca out, (∀ p ∈ ps, InBounds w h p.x p.y) →
      frames rnd amb w h field n ps c ca = some out →
      ∀ snap ∈ out, ∀ e ∈ snap, InBounds w h e.x e.y := by
  induction n with
  | zero =>
    intro ps c ca out _ hres snap hsnap
    simp only [frames, Option.some.injEq] at hres
    subst hres
    simp at hsnap
  | succ n ih =>
    intro ps c ca out hps hres snap hsnap e he
    unfold frames at hres
    cases h1 : stepAll rnd amb w h field ps c ca with
    | none => simp [h1] at hres
    | some r =>
      simp only [h1] at hres
      cases h2 : frames rnd amb w h field n r.1 r.2.1 r.2.2 with
      | none => simp [h2] at hres
      | some rest =>
        simp only [h2, Option.some.injEq] at hres
        subst hres
        simp only [List.mem_cons] at hsnap
        rcases hsnap with rfl | hsnap
        · simp only [List.mem_map] at he
          obtain ⟨p, hp, rfl⟩ := he
          exact hps p hp
        · exact ih r.1 r.2.1 r.2.2 rest
            (stepAll_inBounds rnd amb w h field hw hh hr ps c ca r h1) h2 snap hsnap e he

theorem frames_isSome {K : Type} [LinearOrderedField K] [FloorRing K]
    (rnd amb : Nat → K) (w h : K) (field : List (List (K × K))) (hf : field ≠ []) (n : Nat) :
    ∀ ps c ca, ∃ out, frames rnd amb w h field n ps c ca = some out ∧ out.length = n := by
  induction n with
  | zero => intro ps c ca; exact ⟨[], rfl, rfl⟩
  | succ n ih =>
    intro ps c ca
    obtain ⟨r, h1⟩ := stepAll_isSome rnd amb w h field hf ps c ca
    obtain ⟨rest, h2, h3⟩ := ih r.1 r.2.1 r.2.2
    exact ⟨ps.map snapOf :: rest, by simp only [frames, h1, h2], by simp [h3]⟩

/-- C8: for `w > 0`, `h > 0` and stream values in `[0,1)`, in exact arithmetic
with the truncated remainder, every entry of every snapshot that
`particleSystem` returns has `0 ≤ x < w` and `0 ≤ y < h`; for a non-empty field
the call returns its 120 snapshots. -/
theorem particleSystem_in_bounds {K : Type} [LinearOrderedField K] [FloorRing K]
    (rnd amb : Nat → K) (c ca : Nat) (w h : K) (count : Nat) (field : List (List (K × K)))
    (hw : 0 < w) (hh : 0 < h) (hr : ∀ i, 0 ≤ rnd i ∧ rnd i < 1) :
    (field ≠ [] → ∃ out, particleSystem rnd amb c ca w h count field = some out ∧
      out.length = 120) ∧
    ∀ out, particleSystem rnd amb c ca w h count field = some out →
      ∀ snap ∈ out, ∀ e ∈ snap, 0 ≤ e.x ∧ e.x < w ∧ 0 ≤ e.y ∧ e.y < h := by
  constructor
  · intro hf
    exact frames_isSome rnd amb w h field hf 120 _ _ _
  · intro out hout
    exact frames_inBounds rnd amb w h field hw hh hr 120 _ _ _ out
      (initParticles_inBounds rnd w h hw hh hr count 0 c) hout

/-! ## Determinism of `particleSystem` -/

theorem rngValue_range (seed : Int) (n : Nat) : 0 ≤ rngValue seed n ∧ rngValue seed n < 1 := by
  have hk : rngOut (rngState seed n) < 4294967296 := toUint32_lt _
  unfold rngValue
  constructor
  · exact div_nonneg (Nat.cast_nonneg _) (by norm_num)
  · rw [div_lt_one (by norm_num)]
    exact_mod_cast hk

theorem frames_get_one {K : Type} [LinearOrderedField K] [FloorRing K]
    (rnd amb : Nat → K) (w h : K) (field : List (List (K × K))) (n : Nat)
    (ps : List (Particle K)) (c ca : Nat) (out : List (List (Snap K)))
    (r : List (Particle K) × Nat × Nat)
    (hout : frames rnd amb w h field (n + 2) ps c ca = some out)
    (hr : stepAll rnd amb w h field ps c ca = some r) :
    out.get? 1 = some (r.1.map snapOf) := by
  unfold frames at hout
  simp only [hr] at hout
  cases h2 : frames rnd amb w h field (n + 1) r.1 r.2.1 r.2.2 with
  | none => simp [h2] at hout
  | some rest =>
    simp only [h2, Option.some.injEq] at hout
    subst hout
    unfold frames at h2
    cases h3 : stepAll rnd amb w h field r.1 r.2.1 r.2.2 with
    | none => simp [h3] at h2
    | some r2 =>
      simp only [h3] at h2
      cases h4 : frames rnd amb w h field n r2.1 r2.2.1 r2.2.2 with
      | none => simp [h4] at h2
      | some rest2 =>
        simp only [h4, Option.some.injEq] at h2
        subst h2
        rfl

theorem fieldAt_zero {K : Type} [LinearOrderedField K] (fy fx : Int) :
    fieldAt [[((0 : K), (0 : K))]] fy fx = (0, 0) := by
  unfold fieldAt
  split
  · rfl
  · cases hc : cellAt [[((0 : K), (0 : K))]] fy.toNat fx.toNat with
    | none => rfl
    | some f =>
      simp only
      unfold cellAt at hc
      cases hy : fy.toNat with
      | zero =>
        simp only [hy, List.get?_cons_zero] at hc
        cases hx : fx.toNat with
        | zero => simp only [hx, List.get?_cons_zero, Option.some.injEq] at hc; exact hc.symm
        | succ k => simp [hx] at hc
      | succ k => simp [hy] at hc

/-- The `x` of a particle after one frame on the field `[[[0,0]]]` when it is
not respawned. -/
theorem stepParticle_x {K : Type} [LinearOrderedField K] [FloorRing K]
    (rnd amb : Nat → K) (w h : K) (p : Particle K) (c ca : Nat) (hl : ¬ p.life - 1 ≤ 0) :
    ∃ r, stepParticle rnd amb w h [[(0, 0)]] p c ca = some r ∧
      r.1.x = wrap (p.x + (if amb ca < 2 / 1000 then p.vx + (rnd c - 1 / 2) * 4 else p.vx)
        * (1 / 2)) w := by
  unfold stepParticle
  simp only [List.head?_cons, fieldAt_zero, if_neg hl, zero_mul, add_zero]
  exact ⟨_, rfl, rfl⟩

theorem wrap_of_inside {K : Type} [LinearOrderedField K] [FloorRing K] (x w : K)
    (h0 : 0 ≤ x) (h1 : x < w) : wrap x w = x := by
  unfold wrap
  simp only [if_neg (not_lt.mpr h0), ge_iff_le, if_neg (not_le.mpr h1)]

set_option maxRecDepth 100000 in
theorem rng_one_values :
    rngStream 1 1 = 2329786983 / 4294967296 ∧ rngStream 1 3 = 3844215146 / 4294967296 ∧
      rngStream 1 5 = 1887927119 / 4294967296 ∧ rngStream 1 10 = 3325993073 / 4294967296 := by
  have h1 : rngOut (rngState 1 2) = 2329786983 := by rfl
  have h3 : rngOut (rngState 1 4) = 3844215146 := by rfl
  have h5 : rngOut (rngState 1 6) = 1887927119 := by rfl
  have h10 : rngOut (rngState 1 11) = 3325993073 := by rfl
  simp only [rngStream, rngValue, h1, h3, h5, h10]
  norm_num

/-- C3: two runs of `particleSystem` on the same seeded stream `rng(1)`, at the
same cursor and with the same arguments (`w = h = 100`, one particle, field
`[[[0,0]]]`) return different outputs when `Math.random()` returns `1/2` in one
run and `0` in the other. -/
theorem particleSystem_depends_on_ambient :
    ∃ out1 out2,
      particleSystem (rngStream 1) (fun _ => (1 / 2 : ℚ)) 0 0 100 100 1 [[(0, 0)]] = some out1 ∧
      particleSystem (rngStream 1) (fun _ => (0 : ℚ)) 0 0 100 100 1 [[(0, 0)]] = some out2 ∧
      out1 ≠ out2 := by
  obtain ⟨v1, v3, v5, v10⟩ := rng_one_values
  have hl : ¬ (newParticle (rngStream 1) 0 (100 : ℚ) 100 0).1.life - 1 ≤ 0 := by
    simp only [newParticle, v5]
    norm_num
  obtain ⟨out1, h1, _⟩ := frames_isSome (rngStream 1) (fun _ => (1 / 2 : ℚ)) 100 100
    [[(0, 0)]] (by simp) 120 [(newParticle (rngStream 1) 0 (100 : ℚ) 100 0).1] 10 0
  obtain ⟨out2, h2, _⟩ := frames_isSome (rngStream 1) (fun _ => (0 : ℚ)) 100 100
    [[(0, 0)]] (by simp) 120 [(newParticle (rngStream 1) 0 (100 : ℚ) 100 0).1] 10 0
  refine ⟨out1, out2, h1, h2, ?_⟩
  obtain ⟨r1, hr1, hx1⟩ := stepParticle_x (rngStream 1) (fun _ => (1 / 2 : ℚ)) 100 100
    (newParticle (rngStream 1) 0 (100 : ℚ) 100 0).1 10 0 hl
  obtain ⟨r2, hr2, hx2⟩ := stepParticle_x (rngStream 1) (fun _ => (0 : ℚ)) 100 100
    (newParticle (rngStream 1) 0 (100 : ℚ) 100 0).1 10 0 hl
  have g1 := frames_get_one _ _ _ _ _ 118 _ _ _ out1 ([r1.1], r1.2.1, r1.2.2) h1
    (by simp only [stepAll, hr1])
  have g2 := frames_get_one _ _ _ _ _ 118 _ _ _ out2 ([r2.1], r2.2.1, r2.2.2) h2
    (by simp only [stepAll, hr2])
  intro heq
  rw [heq, g2] at g1
  simp only [List.map_cons, List.map_nil, Option.some.injEq, List.cons.injEq, and_true] at g1
  have hx : r2.1.x = r1.1.x := congrArg Snap.x g1
  rw [hx1, hx2] at hx
  simp only [newParticle, v1, v3, v10] at hx
  norm_num at hx
  rw [wrap_of_inside _ _ (by norm_num) (by norm_num),
    wrap_of_inside _ _ (by norm_num) (by norm_num)] at hx
  norm_num at hx

theorem particleSystem_in_bounds_witness :
    (([[((0 : ℚ), (0 : ℚ))]] : List (List (ℚ × ℚ))) ≠ [] →
      ∃ out, particleSystem (rngStream 1) (fun _ => (1 / 2 : ℚ)) 0 0 100 100 1 [[(0, 0)]]
        = some out ∧ out.length = 120) ∧
    ∀ out, particleSystem (rngStream 1) (fun _ => (1 / 2 : ℚ)) 0 0 100 100 1 [[(0, 0)]]
        = some out →
      ∀ snap ∈ out, ∀ e ∈ snap, 0 ≤ e.x ∧ e.x < 100 ∧ 0 ≤ e.y ∧ e.y < 100 :=
  particleSystem_in_bounds (rngStream 1) (fun _ => (1 / 2 : ℚ)) 0 0 100 100 1 [[(0, 0)]]
    (by norm_num) (by norm_num) (fun i => rngValue_range 1 (i + 1))

/-! ## `perlinNoise`: range -/

theorem fade_nonneg {K : Type} [LinearOrderedField K] (t : K) (h0 : 0 ≤ t) : 0 ≤ fade t := by
  have e : fade t = t * t * t * (6 * (t - 5 / 4) ^ 2 + 5 / 8) := by unfold fade; ring
  rw [e]
  have : 0 ≤ 6 * (t - 5 / 4) ^ 2 + 5 / 8 := by positivity
  exact mul_nonneg (mul_nonneg (mul_nonneg h0 h0) h0) this

theorem fade_le_one {K : Type} [LinearOrderedField K] (t : K) (h0 : 0 ≤ t) (h1 : t ≤ 1) :
    fade t ≤ 1 := by
  have e : 1 - fade t = (1 - t) * (1 - t) * (1 - t) * (6 * t ^ 2 + 3 * t + 1) := by
    unfold fade; ring
  have h2 : 0 ≤ 1 - t := by linarith
  have : 0 ≤ 1 - fade t := by
    rw [e]
    exact mul_nonneg (mul_nonneg (mul_nonneg h2 h2) h2) (by positivity)
  linarith

/-- The weight of the far lattice line times the near offset plus the weight of
the near line times the far offset is at most `1/2`. -/
theorem fade_offset_le_half {K : Type} [LinearOrderedField K] (t : K) (h0 : 0 ≤ t)
    (h1 : t ≤ 1) : (1 - fade t) * t + fade t * (1 - t) ≤ 1 / 2 := by
  have e : (1 - fade t) * t + fade t * (1 - t)
      = 1 / 2 - 2 * (t - 1 / 2) ^ 2 * (6 * (t * (1 - t)) ^ 2 + 2 * (t * (1 - t)) + 1) := by
    unfold fade; ring
  have h2 : 0 ≤ t * (1 - t) := mul_nonneg h0 (by linarith)
  have h3 : 0 ≤ 2 * (t - 1 / 2) ^ 2 * (6 * (t * (1 - t)) ^ 2 + 2 * (t * (1 - t)) + 1) := by
    positivity
  linarith

theorem unit_component_bounds {K : Type} [LinearOrderedField K] (a b : K)
    (h : a ^ 2 + b ^ 2 = 1) : (-1 ≤ a ∧ a ≤ 1) ∧ (-1 ≤ b ∧ b ≤ 1) := by
  have ha : a ^ 2 ≤ 1 := by nlinarith [sq_nonneg b]
  have hb : b ^ 2 ≤ 1 := by nlinarith [sq_nonneg a]
  exact ⟨abs_le.mp ((sq_le_one_iff_abs_le_one a).mp ha),
    abs_le.mp ((sq_le_one_iff_abs_le_one b).mp hb)⟩

theorem mul_offset_bounds {K : Type} [LinearOrderedField K] (a d : K) (ha : -1 ≤ a ∧ a ≤ 1)
    (hd : 0 ≤ d) : -d ≤ a * d ∧ a * d ≤ d := by
  constructor
  · nlinarith [mul_nonneg (by linarith : (0 : K) ≤ a + 1) hd]
  · nlinarith [mul_nonneg (by linarith : (0 : K) ≤ 1 - a) hd]

/-- The interpolation of four corner values, each bounded by the sum of the
distances to its corner, stays in `[-1, 1]`. -/
theorem interpolate_bounds {K : Type} [LinearOrderedField K] (tx ty n0 n1 n2 n3 : K)
    (hx0 : 0 ≤ tx) (hx1 : tx ≤ 1) (hy0 : 0 ≤ ty) (hy1 : ty ≤ 1)
    (b0 : -(tx + ty) ≤ n0 ∧ n0 ≤ tx + ty)
    (b1 : -((1 - tx) + ty) ≤ n1 ∧ n1 ≤ (1 - tx) + ty)
    (b2 : -(tx + (1 - ty)) ≤ n2 ∧ n2 ≤ tx + (1 - ty))
    (b3 : -((1 - tx) + (1 - ty)) ≤ n3 ∧ n3 ≤ (1 - tx) + (1 - ty)) :
    -1 ≤ (n0 + (n1 - n0) * fade tx) + ((n2 + (n3 - n2) * fade tx) - (n0 + (n1 - n0) * fade tx))
        * fade ty ∧
    (n0 + (n1 - n0) * fade tx) + ((n2 + (n3 - n2) * fade tx) - (n0 + (n1 - n0) * fade tx))
        * fade ty ≤ 1 := by
  have sx0 := fade_nonneg tx hx0
  have sx1 := fade_le_one tx hx0 hx1
  have sy0 := fade_nonneg ty hy0
  have sy1 := fade_le_one ty hy0 hy1
  have px := fade_offset_le_half tx hx0 hx1
  have py := fade_offset_le_half ty hy0 hy1
  set sx := fade tx
  set sy := fade ty
  have w0 : 0 ≤ (1 - sx) * (1 - sy) := mul_nonneg (by linarith) (by linarith)
  have w1 : 0 ≤ sx * (1 - sy) := mul_nonneg sx0 (by linarith)
  have w2 : 0 ≤ (1 - sx) * sy := mul_nonneg (by linarith) sy0
  have w3 : 0 ≤ sx * sy := mul_nonneg sx0 sy0
  have e : (n0 + (n1 - n0) * sx) + ((n2 + (n3 - n2) * sx) - (n0 + (n1 - n0) * sx)) * sy
      = (1 - sx) * (1 - sy) * n0 + sx * (1 - sy) * n1 + (1 - sx) * sy * n2 + sx * sy * n3 := by
    ring
  have s : (1 - sx) * (1 - sy) * (tx + ty) + sx * (1 - sy) * ((1 - tx) + ty)
      + (1 - sx) * sy * (tx + (1 - ty)) + sx * sy * ((1 - tx) + (1 - ty))
      = ((1 - sx) * tx + sx * (1 - tx)) + ((1 - sy) * ty + sy * (1 - ty)) := by
    ring
  rw [e]
  have u0 := mul_le_mul_of_nonneg_left b0.2 w0
  have u1 := mul_le_mul_of_nonneg_left b1.2 w1
  have u2 := mul_le_mul_of_nonneg_left b2.2 w2
  have u3 := mul_le_mul_of_nonneg_left b3.2 w3
  have l0 := mul_le_mul_of_nonneg_left b0.1 w0
  have l1 := mul_le_mul_of_nonneg_left b1.1 w1
  have l2 := mul_le_mul_of_nonneg_left b2.1 w2
  have l3 := mul_le_mul_of_nonneg_left b3.1 w3
  constructor <;> linarith

theorem gradGet_mem {K : Type} [LinearOrderedField K] (grad : GradCache K) (i j : Int)
    (v : K × K) (h : gradGet grad i j = some v) : ∃ e ∈ grad, e.2 = v := by
  unfold gradGet at h
  cases hf : grad.find? (fun e => e.1 == (i, j)) with
  | none => simp [hf] at h
  | some e =>
    simp only [hf, Option.some.injEq] at h
    exact ⟨e, List.mem_of_find?_eq_some hf, h⟩

theorem g_unit {K : Type} [LinearOrderedField K] (cs sn : K → K) (pi : K) (rnd : Nat → K)
    (hunit : ∀ a, cs a ^ 2 + sn a ^ 2 = 1) (grad : GradCache K) (c : Nat) (i j : Int)
    (hg : UnitCache grad) :
    (g cs sn pi rnd grad c i j).1.1 ^ 2 + (g cs sn pi rnd grad c i j).1.2 ^ 2 = 1 ∧
      UnitCache (g cs sn pi rnd grad c i j).2.1 := by
  unfold g
  cases hget : gradGet grad i j with
  | some v =>
    obtain ⟨e, he, rfl⟩ := gradGet_mem grad i j v hget
    exact ⟨hg e he, hg⟩
  | none =>
    refine ⟨hunit _, ?_⟩
    intro e he
    simp only [List.mem_cons] at he
    rcases he with rfl | he
    · exact hunit _
    · exact hg e he

theorem dot_bounds {K : Type} [LinearOrderedField K] (gv : K × K) (dx dy ax ay : K)
    (hu : gv.1 ^ 2 + gv.2 ^ 2 = 1) (hx : dx = ax ∨ dx = -ax) (hy : dy = ay ∨ dy = -ay)
    (hax : 0 ≤ ax) (hay : 0 ≤ ay) :
    -(ax + ay) ≤ gv.1 * dx + gv.2 * dy ∧ gv.1 * dx + gv.2 * dy ≤ ax + ay := by
  obtain ⟨h1, h2⟩ := unit_component_bounds gv.1 gv.2 hu
  have bx := mul_offset_bounds gv.1 ax h1 hax
  have b2 := mul_offset_bounds gv.2 ay h2 hay
  have ex : gv.1 * -ax = -(gv.1 * ax) := mul_neg _ _
  have ey : gv.2 * -ay = -(gv.2 * ay) := mul_neg _ _
  rcases hx with rfl | rfl <;> rcases hy with rfl | rfl <;>
    constructor <;> linarith

/-- The value `v` of line 118 lies in `[-1, 1]` when the gradients are unit
vectors. -/
theorem noiseValue_bounds {K : Type} [LinearOrderedField K] [FloorRing K] (cs sn : K → K)
    (pi : K) (rnd : Nat → K) (hunit : ∀ a, cs a ^ 2 + sn a ^ 2 = 1) (w h : Nat) (freq : K)
    (grad : GradCache K) (c x y : Nat) (hg : UnitCache grad) :
    (-1 ≤ (noiseValue cs sn pi rnd w h freq grad c x y).1 ∧
      (noiseValue cs sn pi rnd w h freq grad c x y).1 ≤ 1) ∧
      UnitCache (noiseValue cs sn pi rnd w h freq grad c x y).2.1 := by
  unfold noiseValue
  simp only
  set fx := (x : K) / (w : K) * freq
  set fy := (y : K) / (h : K) * freq
  have hx0 : 0 ≤ fx - (Int.floor fx : K) := sub_nonneg.mpr (Int.floor_le fx)
  have hx1 : fx - (Int.floor fx : K) ≤ 1 := by
    have := Int.lt_floor_add_one fx
    linarith
  have hy0 : 0 ≤ fy - (Int.floor fy : K) := sub_nonneg.mpr (Int.floor_le fy)
  have hy1 : fy - (Int.floor fy : K) ≤ 1 := by
    have := Int.lt_floor_add_one fy
    linarith
  obtain ⟨u0, c0⟩ := g_unit cs sn pi rnd hunit grad c (Int.floor fx) (Int.floor fy) hg
  set g0 := g cs sn pi rnd grad c (Int.floor fx) (Int.floor fy)
  obtain ⟨u1, c1⟩ := g_unit cs sn pi rnd hunit g0.2.1 g0.2.2 (Int.floor fx + 1) (Int.floor fy) c0
  set g1 := g cs sn pi rnd g0.2.1 g0.2.2 (Int.floor fx + 1) (Int.floor fy)
  obtain ⟨u2, c2⟩ := g_unit cs sn pi rnd hunit g1.2.1 g1.2.2 (Int.floor fx) (Int.floor fy + 1) c1
  set g2 := g cs sn pi rnd g1.2.1 g1.2.2 (Int.floor fx) (Int.floor fy + 1)
  obtain ⟨u3, c3⟩ :=
    g_unit cs sn pi rnd hunit g2.2.1 g2.2.2 (Int.floor fx + 1) (Int.floor fy + 1) c2
  set g3 := g cs sn pi rnd g2.2.1 g2.2.2 (Int.floor fx + 1) (Int.floor fy + 1)
  refine ⟨?_, c3⟩
  have hsx : 0 ≤ 1 - (fx - (Int.floor fx : K)) := by linarith
  have hsy : 0 ≤ 1 - (fy - (Int.floor fy : K)) := by linarith
  apply interpolate_bounds (fx - (Int.floor fx : K)) (fy - (Int.floor fy : K)) _ _ _ _
    hx0 hx1 hy0 hy1
  · exact dot_bounds g0.1 _ _ _ _ u0 (Or.inl rfl) (Or.inl rfl) hx0 hy0
  · exact dot_bounds g1.1 _ _ _ _ u1 (Or.inr (by push_cast; ring)) (Or.inl rfl) hsx hy0
  · exact dot_bounds g2.1 _ _ _ _ u2 (Or.inl rfl) (Or.inr (by push_cast; ring)) hx0 hsy
  · exact dot_bounds g3.1 _ _ _ _ u3 (Or.inr (by push_cast; ring)) (Or.inr (by push_cast; ring))
      hsx hsy

theorem mem_setCell {β : Type} (g : List (List β)) (y x : Nat) (v : β) (row : List β)
    (hrow : row ∈ setCell g y x v) (u : β) (hu : u ∈ row) :
    u = v ∨ ∃ row' ∈ g, u ∈ row' := by
  unfold setCell at hrow
  cases hy : g.get? y with
  | none =>
    simp only [hy] at hrow
    exact Or.inr ⟨row, hrow, hu⟩
  | some r =>
    simp only [hy] at hrow
    rcases List.mem_or_eq_of_mem_set hrow with h1 | h1
    · exact Or.inr ⟨row, h1, hu⟩
    · subst h1
      rcases List.mem_or_eq_of_mem_set hu with h2 | h2
      · exact Or.inr ⟨r, List.get?_mem hy, h2⟩
      · exact Or.inl h2

/-- C9: for `w, h ≥ 1`, `freq > 0`, `amp = 1` and unit gradient vectors
(`cs a ^ 2 + sn a ^ 2 = 1`), in exact arithmetic `perlinNoise` returns a
`w`-by-`h` grid whose values all lie in `[0, 1]`. -/
theorem perlinNoise_range {K : Type} [LinearOrderedField K] [FloorRing K] (cs sn : K → K)
    (pi : K) (rnd : Nat → K) (c w h : Nat) (freq : K) (_hw : 1 ≤ w) (_hh : 1 ≤ h)
    (hf : 0 < freq) (hunit : ∀ a, cs a ^ 2 + sn a ^ 2 = 1) :
    IsGrid w h (perlinNoise cs sn pi rnd c w h (some freq) (some 1)).1 ∧
    ∀ row ∈ (perlinNoise cs sn pi rnd c w h (some freq) (some 1)).1, ∀ v ∈ row,
      0 ≤ v ∧ v ≤ 1 := by
  unfold perlinNoise
  have e1 : orDefault (some freq) 6 = freq := by
    unfold orDefault
    simp only [if_neg (ne_of_gt hf)]
  have e2 : orDefault (some (1 : K)) 1 = 1 := by
    unfold orDefault
    simp
  simp only [e1, e2]
  have key := forCells_inv w h (noiseCell cs sn pi rnd w h freq 1)
    (fun _ _ (s : NoiseState K) => (IsGrid w h s.grid ∧
      ∀ row ∈ s.grid, ∀ v ∈ row, 0 ≤ v ∧ v ≤ 1) ∧ UnitCache s.grad)
    ⟨makeGrid w h (fun _ _ => 0), [], c⟩
    (by
      refine ⟨⟨isGrid_makeGrid w h _, ?_⟩, ?_⟩
      · intro row hrow v hv
        simp only [makeGrid, List.mem_map, List.mem_range] at hrow
        obtain ⟨y, _, rfl⟩ := hrow
        simp only [List.mem_map, List.mem_range] at hv
        obtain ⟨x, _, rfl⟩ := hv
        exact ⟨le_refl 0, zero_le_one⟩
      · intro e he
        simp at he)
    (by
      intro y x s _ _ hs
      obtain ⟨⟨hgrid, hcells⟩, hcache⟩ := hs
      obtain ⟨hv, hc⟩ := noiseValue_bounds cs sn pi rnd hunit w h freq s.grad s.c x y hcache
      refine ⟨⟨isGrid_setCell hgrid y x _, ?_⟩, hc⟩
      intro row hrow v hvr
      rcases mem_setCell s.grid y x _ row hrow v hvr with h1 | ⟨row', hr', hv'⟩
      · rw [h1]
        constructor
        · apply div_nonneg _ (by norm_num)
          linarith [hv.1]
        · rw [div_le_one (by norm_num)]
          linarith [hv.2]
      · exact hcells row' hr' v hv')
    (fun _ _ _ hs => hs)
  exact key.1

theorem perlinNoise_range_witness :
    IsGrid 2 3 (perlinNoise Real.cos Real.sin Real.pi (fun i => ((rngStream 1 i : ℚ) : ℝ)) 0
      2 3 (some 4) (some 1)).1 ∧
    ∀ row ∈ (perlinNoise Real.cos Real.sin Real.pi (fun i => ((rngStream 1 i : ℚ) : ℝ)) 0
      2 3 (some 4) (some 1)).1, ∀ v ∈ row, 0 ≤ v ∧ v ≤ 1 :=
  perlinNoise_range Real.cos Real.sin Real.pi (fun i => ((rngStream 1 i : ℚ) : ℝ)) 0 2 3 4
    (by decide) (by decide) (by norm_num) (fun a => Real.cos_sq_add_sin_sq a)

/-! ## `mirror` and `convolve` on rectangular grids -/

theorem cellAt_of_isGrid {β : Type} {w h : Nat} {g : List (List β)} (hg : IsGrid w h g)
    (y x : Nat) (hy : y < h) (hx : x < w) : ∃ v, cellAt g y x = some v := by
  have hlen : y < g.length := by rw [hg.1]; exact hy
  have hw : g[y].length = w := hg.2 _ (List.getElem_mem _)
  refine ⟨g[y][x], ?_⟩
  simp [cellAt, List.getElem?_eq_getElem hlen, List.getElem?_eq_getElem (hw ▸ hx)]

theorem isGrid_map {β γ : Type} {w h : Nat} {g : List (List β)} (hg : IsGrid w h g)
    (f : β → γ) : IsGrid w h (g.map (fun row => row.map f)) := by
  refine ⟨by simpa using hg.1, ?_⟩
  intro row hrow
  simp only [List.mem_map] at hrow
  obtain ⟨r, hr, rfl⟩ := hrow
  simpa using hg.2 r hr

theorem cellAt_map {β γ : Type} (g : List (List β)) (f : β → γ) (y x : Nat) :
    cellAt (g.map (fun row => row.map f)) y x = (cellAt g y x).map f := by
  unfold cellAt
  simp only [List.get?_eq_getElem?, List.getElem?_map]
  cases g[y]? with
  | none => rfl
  | some row => simp

/-- The double loop of `mirror` leaves a copy of the grid: a write to column
`w-1-x` lands on column `x` itself or on a column the loop has yet to reach. -/
theorem mirror_eq_copy {β : Type} (w h : Nat) (g : List (List β)) (hg : IsGrid w h g)
    (hne : g ≠ []) : mirror g = some (g.map (fun row => row.map some)) := by
  obtain ⟨row0, rest, rfl⟩ := List.exists_cons_of_ne_nil hne
  have hw0 : row0.length = w := hg.2 row0 (List.mem_cons_self _ _)
  have hh0 : (row0 :: rest).length = h := hg.1
  unfold mirror
  simp only [hw0, hh0]
  have key := forCells_inv w h (fun out x y => mirrorCell (row0 :: rest) w y out x)
    (fun y x out => IsGrid w h out ∧ ∀ y' x', y' < h → x' < w →
      (y' < y ∨ (y' = y ∧ x' < x)) → cellAt out y' x' = some (cellAt (row0 :: rest) y' x'))
    (makeGrid w h (fun _ _ => (none : Option β)))
    ⟨isGrid_makeGrid w h _, by intro y' x' _ _ hlt; omega⟩
    (by
      intro y x s hy hx ⟨hs, hdone⟩
      have hs1 : IsGrid w h (setCell s y x (cellAt (row0 :: rest) y x)) := isGrid_setCell hs y x _
      have hbase : ∀ y' x', y' < h → x' < w → (y' < y ∨ (y' = y ∧ x' < x + 1)) →
          cellAt (setCell s y x (cellAt (row0 :: rest) y x)) y' x'
            = some (cellAt (row0 :: rest) y' x') := by
        intro y' x' hy' hx' hlt
        rw [cellAt_setCell hs y x _ hy hx]
        by_cases hc : y' = y ∧ x' = x
        · rw [if_pos hc, hc.1, hc.2]
        · rw [if_neg hc]
          exact hdone y' x' hy' hx' (by omega)
      unfold mirrorCell
      simp only
      by_cases h2 : 2 * x < w
      · rw [if_pos h2]
        refine ⟨isGrid_setCell hs1 y (w - 1 - x) _, ?_⟩
        intro y' x' hy' hx' hlt
        rw [cellAt_setCell hs1 y (w - 1 - x) _ hy (by omega)]
        by_cases hc : y' = y ∧ x' = w - 1 - x
        · have hxx : x' = x := by omega
          rw [if_pos hc, hc.1, hxx]
        · rw [if_neg hc]
          exact hbase y' x' hy' hx' hlt
      · rw [if_neg h2]
        exact ⟨hs1, hbase⟩)
    (by
      intro y s hy ⟨hs, hdone⟩
      exact ⟨hs, fun y' x' hy' hx' hlt => hdone y' x' hy' hx' (by omega)⟩)
  congr 1
  apply grid_ext key.1 (isGrid_map hg some)
  intro y x hy hx
  obtain ⟨v, hv⟩ := cellAt_of_isGrid hg y x hy hx
  have := key.2 y x hy hx (by omega)
  rw [cellAt_map, hv]
  rw [hv] at this
  exact this

/-- C19: for every non-empty rectangular grid `g`, of any width, `mirror(g)` is
equal to `g` cell by cell. -/
theorem mirror_is_identity {β : Type} (w h : Nat) (g : List (List β)) (hg : IsGrid w h g)
    (hne : g ≠ []) : mirror g = some (g.map (fun row => row.map some)) :=
  mirror_eq_copy w h g hg hne

theorem mirror_is_identity_witness :
    mirror [[1, 2, 3], [4, 5, 6]] = some ([[1, 2, 3], [4, 5, 6]].map (fun row => row.map some)) :=
  mirror_is_identity 3 2 [[1, 2, 3], [4, 5, 6]] ⟨by decide, by decide⟩ (by decide)

/-- C12: for every non-empty rectangular grid `g` of even width,
`mirror(mirror(g))` is equal to `g` cell by cell. -/
theorem mirror_mirror_even {β : Type} (w h : Nat) (g : List (List β)) (hg : IsGrid w h g)
    (hne : g ≠ []) (_hw : w % 2 = 0) :
    ∃ m, mirror g = some m ∧
      mirror m = some (g.map (fun row => row.map (fun v => some (some v)))) := by
  refine ⟨_, mirror_eq_copy w h g hg hne, ?_⟩
  rw [mirror_eq_copy w h _ (isGrid_map hg some) (by simpa using hne)]
  simp [List.map_map]

theorem mirror_mirror_even_witness :
    ∃ m, mirror [[1, 2], [3, 4]] = some m ∧
      mirror m = some ([[1, 2], [3, 4]].map (fun row => row.map (fun v => some (some v)))) :=
  mirror_mirror_even 2 2 [[1, 2], [3, 4]] ⟨by decide, by decide⟩ (by decide) (by decide)

/-- C11: for every non-empty rectangular grid `g` of numbers, in exact
arithmetic `convolve(g, [[1]])` is a grid of the same dimensions equal to `g`
cell by cell. -/
theorem convolve_identity_kernel {K : Type} [LinearOrderedField K] (w h : Nat)
    (g : List (List K)) (hg : IsGrid w h g) (hne : g ≠ []) :
    convolve g [[1]] = some (g.map (fun row => row.map some)) := by
  obtain ⟨row0, rest, rfl⟩ := List.exists_cons_of_ne_nil hne
  have hw0 : row0.length = w := hg.2 row0 (List.mem_cons_self _ _)
  have hh0 : (row0 :: rest).length = h := hg.1
  unfold convolve
  simp only [hw0, hh0]
  rw [forCells_fill w h _ _ (isGrid_makeGrid w h _)]
  congr 1
  apply grid_ext (isGrid_makeGrid w h _) (isGrid_map hg some)
  intro y x hy hx
  obtain ⟨v, hv⟩ := cellAt_of_isGrid hg y x hy hx
  rw [cellAt_makeGrid w h _ y x hy hx, cellAt_map, hv]
  have hr : List.range 1 = [0] := rfl
  have hx' : (x : Int) < (w : Int) := by exact_mod_cast hx
  have hy' : (y : Int) < (h : Int) := by exact_mod_cast hy
  have hx0 : (0 : Int) ≤ (x : Int) := Int.ofNat_nonneg x
  have hy0 : (0 : Int) ≤ (y : Int) := Int.ofNat_nonneg y
  simp only [convolveCell, forCells, List.length_cons, List.length_nil, hr,
    List.foldl_cons, List.foldl_nil, Option.map_some']
  simp [hx', hy', hx0, hy0, hv, accumulate]
  simp [cellAt]

theorem convolve_identity_kernel_witness :
    convolve [[(1 : ℚ), 2, 3], [4, 5, 6]] [[1]]
      = some ([[(1 : ℚ), 2, 3], [4, 5, 6]].map (fun row => row.map some)) :=
  convolve_identity_kernel 3 2 [[(1 : ℚ), 2, 3], [4, 5, 6]]
    ⟨rfl, by intro row hrow; simp at hrow; rcases hrow with rfl | rfl <;> rfl⟩ (by simp)

/-! ## `shuffle` -/

theorem set_perm_cons {α : Type} (l : List α) (j : Nat) (hj : j < l.length) (x : α) :
    List.Perm (l[j] :: l.set j x) (x :: l) := by
  induction l generalizing j with
  | nil => simp at hj
  | cons y ys ih =>
    cases j with
    | zero => exact List.Perm.swap _ _ _
    | succ k =>
      have hk : k < ys.length := by simpa using hj
      simp only [List.getElem_cons_succ, List.set_cons_succ]
      exact (List.Perm.swap _ _ _).trans (((ih k hk).cons y).trans (List.Perm.swap _ _ _))

theorem set_getElem_same {α : Type} (l : List α) (i : Nat) (hi : i < l.length) :
    l.set i l[i] = l := by
  induction l generalizing i with
  | nil => rfl
  | cons y ys ih =>
    cases i with
    | zero => rfl
    | succ k =>
      simp only [List.getElem_cons_succ, List.set_cons_succ]
      rw [ih k (by simpa using hi)]

theorem swap_perm_lt {α : Type} (l : List α) (i j : Nat) (hij : i < j) (hi : i < l.length)
    (hj : j < l.length) : List.Perm ((l.set i l[j]).set j l[i]) l := by
  induction l generalizing i j with
  | nil => simp at hj
  | cons y ys ih =>
    cases j with
    | zero => omega
    | succ k =>
      have hk : k < ys.length := by simpa using hj
      cases i with
      | zero =>
        simp only [List.getElem_cons_succ, List.set_cons_zero, List.set_cons_succ,
          List.getElem_cons_zero]
        exact set_perm_cons ys k hk y
      | succ m =>
        simp only [List.getElem_cons_succ, List.set_cons_succ]
        exact (ih m k (by omega) (by simpa using hi) hk).cons y

/-- Exchanging two elements of a list gives a permutation of it. -/
theorem swap_perm {α : Type} (l : List α) (i j : Nat) (hi : i < l.length) (hj : j < l.length) :
    List.Perm ((l.set i l[j]).set j l[i]) l := by
  rcases Nat.lt_trichotomy i j with h | h | h
  · exact swap_perm_lt l i j h hi hj
  · subst h
    rw [List.set_set, set_getElem_same l i hi]
  · rw [List.set_comm _ _ _ (Nat.ne_of_gt h)]
    exact swap_perm_lt l j i h hj hi

theorem swapIndex_bounds {K : Type} [LinearOrderedField K] [FloorRing K] (r : K) (i : Nat)
    (hr : 0 ≤ r ∧ r < 1) : 0 ≤ swapIndex r i ∧ swapIndex r i ≤ (i : Int) := by
  have hpos : (0 : K) < (i : K) + 1 := by positivity
  unfold swapIndex
  constructor
  · rw [Int.floor_nonneg]
    exact mul_nonneg hr.1 (le_of_lt hpos)
  · rw [Int.floor_le_iff]
    push_cast
    calc r * ((i : K) + 1) < 1 * ((i : K) + 1) := mul_lt_mul_of_pos_right hr.2 hpos
      _ = (i : K) + 1 := one_mul _

theorem arrRead_inside {β : Type} (a : List (Option β)) (j : Nat) (hj : j < a.length) :
    arrRead a (j : Int) = a[j] := by
  unfold arrRead
  simp [List.getElem?_eq_getElem hj]

theorem arrWrite_inside {β : Type} (a : List (Option β)) (j : Nat) (hj : j < a.length)
    (v : Option β) : arrWrite a (j : Int) v = a.set j v := by
  unfold arrWrite
  simp [hj]

/-- One swap with both indices inside the array keeps the length and permutes
the contents. -/
theorem shuffleStep_perm {K : Type} [LinearOrderedField K] [FloorRing K] {β : Type}
    (rnd : Nat → K) (hr : ∀ i, 0 ≤ rnd i ∧ rnd i < 1) (a : List (Option β)) (c i : Nat)
    (hi : i < a.length) :
    (shuffleStep rnd a c i).1.length = a.length ∧ List.Perm (shuffleStep rnd a c i).1 a := by
  obtain ⟨h0, h1⟩ := swapIndex_bounds (rnd c) i (hr c)
  obtain ⟨j, hj⟩ := Int.eq_ofNat_of_zero_le h0
  have hji : j ≤ i := by rw [hj] at h1; exact_mod_cast h1
  have hjl : j < a.length := lt_of_le_of_lt hji hi
  unfold shuffleStep
  simp only [hj]
  rw [arrRead_inside a i hi, arrRead_inside a j hjl, arrWrite_inside a i hi,
    arrWrite_inside _ j (by simpa using hjl)]
  exact ⟨by simp, swap_perm a i j hi hjl⟩

theorem shuffleLoop_perm {K : Type} [LinearOrderedField K] [FloorRing K] {β : Type}
    (rnd : Nat → K) (hr : ∀ i, 0 ≤ rnd i ∧ rnd i < 1) (i : Nat) :
    ∀ (a : List (Option β)) (c : Nat), i < a.length ∨ i = 0 →
      (shuffleLoop rnd i a c).1.length = a.length ∧ List.Perm (shuffleLoop rnd i a c).1 a := by
  induction i with
  | zero => intro a c _; exact ⟨rfl, List.Perm.refl _⟩
  | succ k ih =>
    intro a c hi
    have hk : k + 1 < a.length := by omega
    obtain ⟨hl, hp⟩ := shuffleStep_perm rnd hr a c (k + 1) hk
    obtain ⟨hl2, hp2⟩ := ih (shuffleStep rnd a c (k + 1)).1 (shuffleStep rnd a c (k + 1)).2
      (Or.inl (by omega))
    simp only [shuffleLoop]
    exact ⟨hl2.trans hl, hp2.trans hp⟩

/-- C13: for every array `a` and stream values in `[0,1)`, `shuffle(a)` leaves
an array of the same length whose contents are a permutation of the contents
before the call, and every swap index `j = floor(r*(i+1))` has `0 ≤ j ≤ i`. -/
theorem shuffle_perm {K : Type} [LinearOrderedField K] [FloorRing K] {β : Type}
    (rnd : Nat → K) (c : Nat) (a : List (Option β)) (hr : ∀ i, 0 ≤ rnd i ∧ rnd i < 1) :
    (shuffle rnd c a).1.length = a.length ∧ List.Perm (shuffle rnd c a).1 a ∧
      ∀ k i, 0 ≤ swapIndex (rnd k) i ∧ swapIndex (rnd k) i ≤ (i : Int) := by
  obtain ⟨hl, hp⟩ := shuffleLoop_perm rnd hr (a.length - 1) a c (by omega)
  exact ⟨hl, hp, fun k i => swapIndex_bounds (rnd k) i (hr k)⟩

theorem shuffle_perm_witness :
    (shuffle (rngStream 1) 0 [some 'a', some 'b', some 'c']).1.length
        = [some 'a', some 'b', some 'c'].length ∧
      List.Perm (shuffle (rngStream 1) 0 [some 'a', some 'b', some 'c']).1
        [some 'a', some 'b', some 'c'] ∧
      ∀ k i, 0 ≤ swapIndex (rngStream 1 k) i ∧ swapIndex (rngStream 1 k) i ≤ (i : Int) :=
  shuffle_perm (rngStream 1) 0 [some 'a', some 'b', some 'c']
    (fun i => rngValue_range 1 (i + 1))

/-! ## `hashStr` -/

theorem digit36_hex : ∀ d, d < 16 → digit36 d = ['0', '1', '2', '3', '4', '5', '6', '7', '8',
    '9', 'a', 'b', 'c', 'd', 'e', 'f'].getD d '0' := by
  decide

theorem digits16_eq (fuel : Nat) : ∀ (n : Nat) (acc : List Char), n ≠ 0 → n < fuel →
    digits16 fuel n acc = (Nat.digits 16 n).reverse.map digit36 ++ acc := by
  induction fuel with
  | zero => intro n acc _ h; omega
  | succ f ih =>
    intro n acc hn hf
    unfold digits16
    by_cases h0 : n / 16 = 0
    · have hlt : n < 16 := by omega
      rw [if_pos h0, Nat.digits_of_lt 16 n hn hlt, Nat.mod_eq_of_lt hlt]
      rfl
    · rw [if_neg h0, ih (n / 16) _ h0 (by omega),
        Nat.digits_def' (by norm_num : 1 < 16) (Nat.pos_of_ne_zero hn)]
      simp

theorem toString16_eq_hexRender (n : Nat) : toString16 n = hexRender n := by
  unfold toString16 hexRender
  by_cases hn : n = 0
  · subst hn
    rfl
  · rw [if_neg hn, digits16_eq (n + 1) n [] hn (Nat.lt_succ_self n), List.append_nil]
    apply List.map_congr_left
    intro d hd
    exact digit36_hex d (Nat.digits_lt_base (by norm_num) (List.mem_reverse.mp hd))

theorem length_hexRender_le (n : Nat) (hn : n < 4294967296) : (hexRender n).length ≤ 8 := by
  unfold hexRender
  by_cases h0 : n = 0
  · rw [if_pos h0]
    decide
  · rw [if_neg h0, List.length_map, List.length_reverse]
    have h1 := Nat.base_pow_length_digits_le 16 n (by norm_num) h0
    have h2 : 16 ^ (Nat.digits 16 n).length < 16 ^ 9 := by
      calc 16 ^ (Nat.digits 16 n).length ≤ 16 * n := h1
        _ < 16 ^ 9 := by omega
    have h3 := (Nat.pow_lt_pow_iff_right (by norm_num : 1 < 16)).mp h2
    omega

theorem hashStep_word (h : Int) (b : Nat) (hb : b < 4294967296) :
    toUint32 (hashStep h b) = ((toUint32 h ^^^ b) * 16777619) % 4294967296 := by
  unfold hashStep
  rw [toUint32_ofNat _ (toUint32_lt _), toUint32_imul, toUint32_jsXor, toUint32_ofNat b hb]
  have e : toUint32 16777619 = 16777619 := by decide
  rw [e]

theorem foldl_hashStep (bytes : List Nat) (hb : ∀ b ∈ bytes, b < 4294967296) :
    ∀ (h : Int) (u : Nat), toUint32 h = u →
      toUint32 (bytes.foldl hashStep h)
        = bytes.foldl (fun h b => ((h ^^^ b) * 16777619) % 4294967296) u := by
  induction bytes with
  | nil => intro h u hu; exact hu
  | cons b bs ih =>
    intro h u hu
    simp only [List.foldl_cons]
    apply ih (fun x hx => hb x (List.mem_cons_of_mem _ hx))
    rw [hashStep_word h b (hb b (List.mem_cons_self _ _)), hu]

theorem codeUnits_of_small (s : List Char) (hs : ∀ ch ∈ s, ch.toNat < 65536) :
    codeUnits s = s.map Char.toNat := by
  induction s with
  | nil => rfl
  | cons ch rest ih =>
    have h1 : ch.toNat < 65536 := hs ch (List.mem_cons_self _ _)
    have h2 := ih (fun x hx => hs x (List.mem_cons_of_mem _ hx))
    unfold codeUnits at h2 ⊢
    simp only [List.flatMap_cons, List.map_cons, h2, utf16Units, if_pos h1]
    rfl

theorem fnv1a32_lt (bytes : List Nat) : fnv1a32 bytes < 4294967296 := by
  unfold fnv1a32
  induction bytes using List.reverseRecOn with
  | nil => decide
  | append_singleton bs b _ =>
    rw [List.foldl_append]
    simp only [List.foldl_cons, List.foldl_nil]
    exact Nat.mod_lt _ (by norm_num)

/-- C14: for every string whose code units are all below 256, `hashStr(s)` is
the lowercase hexadecimal rendering, of at most 8 digits, of the reference
FNV-1a 32-bit hash of those bytes; each step of the loop (signed xor,
`Math.imul`, `>>> 0`) agrees with `((h xor c) * 16777619) mod 2^32`, and
`hashStr("")` is `811c9dc5`. -/
theorem hashStr_fnv1a (s : List Char) (hs : ∀ ch ∈ s, ch.toNat < 256) :
    codeUnits s = s.map Char.toNat ∧
    toUint32 (hashWord s) = fnv1a32 (s.map Char.toNat) ∧
    hashStr s = hexRender (fnv1a32 (s.map Char.toNat)) ∧
    (hashStr s).length ≤ 8 ∧
    (∀ (h : Int) (b : Nat), b < 256 →
      toUint32 (hashStep h b) = ((toUint32 h ^^^ b) * 16777619) % 4294967296) ∧
    hashStr [] = ['8', '1', '1', 'c', '9', 'd', 'c', '5'] := by
  have hcu := codeUnits_of_small s (fun ch hch => lt_trans (hs ch hch) (by norm_num))
  have hw : toUint32 (hashWord s) = fnv1a32 (s.map Char.toNat) := by
    unfold hashWord fnv1a32
    rw [hcu]
    apply foldl_hashStep
    · intro b hb
      simp only [List.mem_map] at hb
      obtain ⟨ch, hch, rfl⟩ := hb
      exact lt_trans (hs ch hch) (by norm_num)
    · decide
  have hstr : hashStr s = hexRender (fnv1a32 (s.map Char.toNat)) := by
    unfold hashStr
    rw [hw, toString16_eq_hexRender]
  refine ⟨hcu, hw, hstr, ?_, ?_, ?_⟩
  · rw [hstr]
    exact length_hexRender_le _ (fnv1a32_lt _)
  · intro h b hb
    exact hashStep_word h b (lt_trans hb (by norm_num))
  · have e : toUint32 (hashWord []) = 2166136261 := by decide
    unfold hashStr
    rw [e, toString16_eq_hexRender]
    unfold hexRender
    norm_num [Nat.digits_def']

theorem hashStr_fnv1a_witness :
    codeUnits ['a'] = ['a'].map Char.toNat ∧
    toUint32 (hashWord ['a']) = fnv1a32 (['a'].map Char.toNat) ∧
    hashStr ['a'] = hexRender (fnv1a32 (['a'].map Char.toNat)) ∧
    (hashStr ['a']).length ≤ 8 ∧
    (∀ (h : Int) (b : Nat), b < 256 →
      toUint32 (hashStep h b) = ((toUint32 h ^^^ b) * 16777619) % 4294967296) ∧
    hashStr [] = ['8', '1', '1', 'c', '9', 'd', 'c', '5'] :=
  hashStr_fnv1a ['a'] (by decide)

/-! ## `lsystem`: rewriting -/

theorem foldl_append_flatMap {α β : Type} (f : α → List β) (s : List α) (acc : List β) :
    s.foldl (fun ns ch => ns ++ f ch) acc = acc ++ s.flatMap f := by
  induction s generalizing acc with
  | nil => simp
  | cons a rest ih => simp [List.foldl_cons, ih, List.flatMap_cons, List.append_assoc]

theorem rewrite_eq_substitute (rules : Char → Option (List Char)) (s : List Char) :
    rewrite rules s = substitute rules s := by
  unfold rewrite substitute
  have e : (fun (ns : List Char) (ch : Char) => ns ++ (match rules ch with
      | some r => r
      | none => [ch])) = (fun ns ch => ns ++ (fun ch => (rules ch).getD [ch]) ch) := by
    funext ns ch
    cases h : rules ch <;> simp [h]
  rw [e, foldl_append_flatMap, List.nil_append]

theorem expand_eq_iterate (rules : Char → Option (List Char)) (n : Nat) (s : List Char) :
    expand rules n s = (substitute rules)^[n] s := by
  induction n generalizing s with
  | zero => rfl
  | succ k ih =>
    rw [expand, ih, rewrite_eq_substitute, Function.iterate_succ_apply]

theorem substitute_no_rule (rules : Char → Option (List Char)) (s : List Char)
    (h : ∀ ch ∈ s, rules ch = none) : substitute rules s = s := by
  induction s with
  | nil => rfl
  | cons a rest ih =>
    have ha : rules a = none := h a (List.mem_cons_self _ _)
    have hr := ih (fun x hx => h x (List.mem_cons_of_mem _ hx))
    unfold substitute at hr ⊢
    simp only [List.flatMap_cons, ha, Option.getD_none, hr]
    rfl

/-- C15: the string `lsystem` interprets is the `n`-fold application to the
axiom of the character-wise substitution (`rules[c]` when `c` has a rule, else
`c`); a string none of whose characters has a rule is left unchanged by any
number of iterations, and with `n = 0` the string is the axiom itself. -/
theorem lsystem_rewrites {K : Type} [LinearOrderedField K] (cs sn : K → K) (pi : K)
    (iter : Nat) (axm : List Char) (rules : Char → Option (List Char)) (angle step : K) :
    lsystem cs sn pi iter axm rules angle step
        = interpret cs sn pi angle step ((substitute rules)^[iter] axm) ∧
      expand rules iter axm = (substitute rules)^[iter] axm ∧
      ((∀ ch ∈ axm, rules ch = none) → expand rules iter axm = axm) ∧
      expand rules 0 axm = axm := by
  refine ⟨?_, expand_eq_iterate rules iter axm, ?_, rfl⟩
  · unfold lsystem
    rw [expand_eq_iterate]
  · intro h
    rw [expand_eq_iterate]
    exact Function.iterate_fixed (substitute_no_rule rules axm h) iter

theorem lsystem_rewrites_witness :
    expand (fun ch => if ch = 'F' then some ['F', '+', 'F'] else none) 3 ['+', '-'] = ['+', '-'] :=
  (lsystem_rewrites (fun _ => (1 : ℚ)) (fun _ => (0 : ℚ)) 3 3 ['+', '-']
    (fun ch => if ch = 'F' then some ['F', '+', 'F'] else none) 60 1).2.2.1 (by decide)

/-- C16: `lsystem(0, "F", rules, angle, step)` is the path of the two points
`(0,0)` and `(step,0)`, for every rule mapping, angle and step, given
`cos 0 = 1` and `sin 0 = 0`. -/
theorem lsystem_zero_iter_F {K : Type} [LinearOrderedField K] (cs sn : K → K) (pi : K)
    (rules : Char → Option (List Char)) (angle step : K) (hc : cs 0 = 1) (hs : sn 0 = 0) :
    lsystem cs sn pi 0 ['F'] rules angle step
      = [PathEntry.point 0 0, PathEntry.point step 0] := by
  simp [lsystem, expand, interpret, turtleStep, hc, hs]

theorem lsystem_zero_iter_F_witness :
    lsystem Real.cos Real.sin Real.pi 0 ['F']
        (fun ch => if ch = 'F' then some ['F', '+', 'F', '-', '-', 'F', '+', 'F'] else none) 60 1
      = [PathEntry.point 0 0, PathEntry.point 1 0] :=
  lsystem_zero_iter_F Real.cos Real.sin Real.pi
    (fun ch => if ch = 'F' then some ['F', '+', 'F', '-', '-', 'F', '+', 'F'] else none) 60 1
    Real.cos_zero Real.sin_zero

/-! ## `textEntropy` -/

/-- C17: on the one-character string made of U+1F600, whose `length` is 2,
`textEntropy` returns `1/2` in real arithmetic, not 0: the character is
counted once and divided by the two code units. -/
theorem textEntropy_astral :
    textEntropy (Real.logb 2) [Char.ofNat 128512] = 1 / 2 := by
  have h1 : forInOrder (freqAdd [] (Char.ofNat 128512)) = [(Char.ofNat 128512, 1)] := by
    decide
  have h2 : (codeUnits [Char.ofNat 128512]).length = 2 := by decide
  have h3 : Real.logb 2 (1 / 2) = -1 := by
    rw [one_div, Real.logb_inv, Real.logb_self_eq_one (by norm_num)]
  unfold textEntropy
  simp only [h1, h2, List.foldl_cons, List.foldl_nil]
  norm_num [h3]

theorem foldl_freqAdd_replicate (c : Char) (m k : Nat) :
    (List.replicate m c).foldl freqAdd [(c, k)] = [(c, k + m)] := by
  induction m generalizing k with
  | zero => rfl
  | succ j ih =>
    simp only [List.replicate_succ, List.foldl_cons, freqAdd, if_true]
    rw [ih (k + 1)]
    congr 2
    omega

theorem forInOrder_single (c : Char) (k : Nat) : forInOrder [(c, k)] = [(c, k)] := by
  by_cases hd : c.isDigit = true
  · have hr : 48 ≤ c.toNat ∧ c.toNat ≤ 57 := by
      simp only [Char.isDigit, Bool.and_eq_true, decide_eq_true_eq] at hd
      exact ⟨by exact_mod_cast hd.1, by exact_mod_cast hd.2⟩
    have hc : c = Char.ofNat c.toNat := (Char.ofNat_toNat c).symm
    obtain ⟨n, hn⟩ : ∃ n, c.toNat = n := ⟨_, rfl⟩
    rw [hn] at hr hc
    obtain ⟨h1, h2⟩ := hr
    interval_cases n <;> subst hc <;> rfl
  · have hf : c.isDigit = false := by simpa using hd
    have hne : ∀ d ∈ ['0', '1', '2', '3', '4', '5', '6', '7', '8', '9'], (c == d) = false := by
      intro d hdm
      have hdd : d.isDigit = true := by
        revert d
        decide
      rw [beq_eq_false_iff_ne]
      intro h
      rw [h, hdd] at hf
      exact Bool.noConfusion hf
    unfold forInOrder
    have e1 : ['0', '1', '2', '3', '4', '5', '6', '7', '8', '9'].filterMap
        (fun d => [(c, k)].find? (fun e => e.1 == d)) = [] := by
      rw [List.filterMap_eq_nil_iff]
      intro d hdm
      simp [List.find?_cons, hne d hdm]
    rw [e1]
    simp [hf]

/-- For a character below U+10000 repeated `n + 1` times `textEntropy` returns
0, given `log2 1 = 0`. -/
theorem textEntropy_repeat_bmp {K : Type} [LinearOrderedField K] (log2 : K → K)
    (hlog : log2 1 = 0) (c : Char) (hc : c.toNat < 65536) (n : Nat) :
    textEntropy log2 (List.replicate (n + 1) c) = 0 := by
  have h1 : (List.replicate (n + 1) c).foldl freqAdd [] = [(c, n + 1)] := by
    rw [List.replicate_succ, List.foldl_cons]
    have := foldl_freqAdd_replicate c n 1
    rw [Nat.add_comm 1 n] at this
    exact this
  have h2 : (codeUnits (List.replicate (n + 1) c)).length = n + 1 := by
    rw [codeUnits_of_small _ (fun ch hch => by rw [List.eq_of_mem_replicate hch]; exact hc)]
    simp
  have hne : ((n + 1 : Nat) : K) ≠ 0 := Nat.cast_ne_zero.mpr (Nat.succ_ne_zero n)
  unfold textEntropy
  simp only [h1, h2, forInOrder_single, List.foldl_cons, List.foldl_nil]
  rw [div_self hne, hlog]
  ring

/-! ## `cellularAutomaton`: the rule table covers every key -/

set_option maxRecDepth 100000 in
theorem ruleKey_bits : ∀ b0 b1 b2 b3 b4 b5 b6 b7 b8 : Bool,
    ruleKey (256 * b0.toNat + 128 * b1.toNat + 64 * b2.toNat + 32 * b3.toNat + 16 * b4.toNat
      + 8 * b5.toNat + 4 * b6.toNat + 2 * b7.toNat + b8.toNat)
    = [if b0 then '1' else '0', if b1 then '1' else '0', if b2 then '1' else '0',
       if b3 then '1' else '0', if b4 then '1' else '0', if b5 then '1' else '0',
       if b6 then '1' else '0', if b7 then '1' else '0', if b8 then '1' else '0'] := by
  decide

theorem bitChar_cases (ch : Char) (h : ch = '0' ∨ ch = '1') :
    ∃ b : Bool, ch = if b then '1' else '0' := by
  rcases h with rfl | rfl
  · exact ⟨false, rfl⟩
  · exact ⟨true, rfl⟩

/-- Every 9-character string over `0`/`1` is one of the 512 keys of the rule
table. -/
theorem key_mem_ruleKeys (key : List Char) (hlen : key.length = 9)
    (hbits : ∀ ch ∈ key, ch = '0' ∨ ch = '1') : key ∈ (List.range 512).map ruleKey := by
  match key, hlen, hbits with
  | [c0, c1, c2, c3, c4, c5, c6, c7, c8], _, hb =>
    obtain ⟨b0, rfl⟩ := bitChar_cases c0 (hb _ (by simp))
    obtain ⟨b1, rfl⟩ := bitChar_cases c1 (hb _ (by simp))
    obtain ⟨b2, rfl⟩ := bitChar_cases c2 (hb _ (by simp))
    obtain ⟨b3, rfl⟩ := bitChar_cases c3 (hb _ (by simp))
    obtain ⟨b4, rfl⟩ := bitChar_cases c4 (hb _ (by simp))
    obtain ⟨b5, rfl⟩ := bitChar_cases c5 (hb _ (by simp))
    obtain ⟨b6, rfl⟩ := bitChar_cases c6 (hb _ (by simp))
    obtain ⟨b7, rfl⟩ := bitChar_cases c7 (hb _ (by simp))
    obtain ⟨b8, rfl⟩ := bitChar_cases c8 (hb _ (by simp))
    rw [List.mem_map]
    refine ⟨256 * b0.toNat + 128 * b1.toNat + 64 * b2.toNat + 32 * b3.toNat + 16 * b4.toNat
      + 8 * b5.toNat + 4 * b6.toNat + 2 * b7.toNat + b8.toNat, ?_,
      ruleKey_bits b0 b1 b2 b3 b4 b5 b6 b7 b8⟩
    rw [List.mem_range]
    have t : ∀ b : Bool, b.toNat ≤ 1 := by decide
    have := t b0; have := t b1; have := t b2; have := t b3; have := t b4
    have := t b5; have := t b6; have := t b7; have := t b8
    omega

theorem caBit_cases (v : Option Nat) : caBit v = '0' ∨ caBit v = '1' := by
  unfold caBit
  split
  · exact Or.inr rfl
  · exact Or.inl rfl

theorem caKey_shape (a : CAGrid) (w h x y : Nat) :
    (caKey a w h x y).length = 9 ∧ ∀ ch ∈ caKey a w h x y, ch = '0' ∨ ch = '1' := by
  unfold caKey
  refine ⟨by simp [caOffsets], ?_⟩
  intro ch hch
  rw [List.mem_map] at hch
  obtain ⟨d, _, rfl⟩ := hch
  exact caBit_cases _

/-- The rule object after the loop of lines 185-186 over the keys `ks`: its
keys are those assigned, and every value is 0 or 1. -/
theorem foldl_rule_spec {K : Type} [LinearOrderedField K] (rnd : Nat → K) (ks : List (List Char)) :
    ∀ (r : Rule) (c : Nat), (∀ kv ∈ r, kv.2 = 0 ∨ kv.2 = 1) →
      (∀ k, k ∈ ks ∨ k ∈ r.map Prod.fst →
        k ∈ (ks.foldl (fun (s : Rule × Nat) k =>
          ((k, if rnd s.2 > 1 / 2 then 1 else 0) :: s.1, s.2 + 1)) (r, c)).1.map Prod.fst) ∧
      (∀ kv ∈ (ks.foldl (fun (s : Rule × Nat) k =>
          ((k, if rnd s.2 > 1 / 2 then 1 else 0) :: s.1, s.2 + 1)) (r, c)).1,
        kv.2 = 0 ∨ kv.2 = 1) := by
  induction ks with
  | nil =>
    intro r c hr
    refine ⟨?_, hr⟩
    intro k hk
    rcases hk with hk | hk
    · simp at hk
    · exact hk
  | cons k0 rest ih =>
    intro r c hr
    simp only [List.foldl_cons]
    have hr2 : ∀ kv ∈ ((k0, if rnd c > 1 / 2 then 1 else 0) :: r : Rule), kv.2 = 0 ∨ kv.2 = 1 := by
      intro kv hkv
      rcases List.mem_cons.mp hkv with rfl | hkv
      · simp only
        split
        · exact Or.inr rfl
        · exact Or.inl rfl
      · exact hr kv hkv
    obtain ⟨i1, i2⟩ := ih ((k0, if rnd c > 1 / 2 then 1 else 0) :: r) (c + 1) hr2
    refine ⟨?_, i2⟩
    intro k hk
    apply i1
    rcases hk with hk | hk
    · rcases List.mem_cons.mp hk with rfl | hk
      · exact Or.inr (by simp)
      · exact Or.inl hk
    · exact Or.inr (by simp only [List.map_cons, List.mem_cons]; exact Or.inr hk)

theorem ruleGet_of_mem (r : Rule) (key : List Char) (hk : key ∈ r.map Prod.fst)
    (hv : ∀ kv ∈ r, kv.2 = 0 ∨ kv.2 = 1) : ∃ v, ruleGet r key = some v ∧ (v = 0 ∨ v = 1) := by
  unfold ruleGet
  cases hf : r.find? (fun kv => kv.1 == key) with
  | none =>
    rw [List.find?_eq_none] at hf
    rw [List.mem_map] at hk
    obtain ⟨kv, hkv, rfl⟩ := hk
    exact absurd (by simp) (hf kv hkv)
  | some kv => exact ⟨kv.2, rfl, hv kv (List.mem_of_find?_eq_some hf)⟩

/-- The lookup `rule[key]` of line 199 finds 0 or 1 for the key of every cell
of every grid. -/
theorem caRule_total {K : Type} [LinearOrderedField K] (rnd : Nat → K) (c : Nat) (a : CAGrid)
    (w h x y : Nat) :
    ∃ v, ruleGet (caRule rnd c).1 (caKey a w h x y) = some v ∧ (v = 0 ∨ v = 1) := by
  obtain ⟨hlen, hbits⟩ := caKey_shape a w h x y
  obtain ⟨h1, h2⟩ := foldl_rule_spec rnd ((List.range 512).map ruleKey) [] c (by simp)
  exact ruleGet_of_mem _ _ (h1 _ (Or.inl (key_mem_ruleKeys _ hlen hbits))) h2

theorem mem_makeGrid {β : Type} (w h : Nat) (f : Nat → Nat → β) (row : List β)
    (hrow : row ∈ makeGrid w h f) (cell : β) (hcell : cell ∈ row) : ∃ x y, cell = f x y := by
  simp only [makeGrid, List.mem_map, List.mem_range] at hrow
  obtain ⟨y, _, rfl⟩ := hrow
  simp only [List.mem_map, List.mem_range] at hcell
  obtain ⟨x, _, rfl⟩ := hcell
  exact ⟨x, y, rfl⟩

theorem caInit_bits {K : Type} [LinearOrderedField K] (rnd : Nat → K) (c w h : Nat) :
    ∀ row ∈ (caInit rnd c w h).1, ∀ cell ∈ row, IsBit cell := by
  unfold caInit
  refine forCells_inv w h _ (fun _ _ (s : CAGrid × Nat) => ∀ row ∈ s.1, ∀ cell ∈ row, IsBit cell)
    _ ?_ ?_ (fun _ _ _ hs => hs)
  · intro row hrow cell hcell
    obtain ⟨x, y, rfl⟩ := mem_makeGrid w h _ row hrow cell hcell
    exact Or.inl rfl
  · intro y x s _ _ hs row hrow cell hcell
    rcases mem_setCell s.1 y x _ row hrow cell hcell with h1 | ⟨row2, hr2, hc2⟩
    · rw [h1]
      split
      · exact Or.inr rfl
      · exact Or.inl rfl
    · exact hs row2 hr2 cell hc2

theorem caStep_bits {K : Type} [LinearOrderedField K] (rnd : Nat → K) (c w h : Nat)
    (a : CAGrid) (ha : IsGrid w h a) :
    ∀ row ∈ caStep (caRule rnd c).1 w h a, ∀ cell ∈ row, IsBit cell := by
  rw [caStep_eq _ w h a ha]
  intro row hrow cell hcell
  obtain ⟨x, y, hxy⟩ := mem_makeGrid w h _ row hrow cell hcell
  obtain ⟨v, hv, h01⟩ := caRule_total rnd c a w h x y
  rw [hxy, hv]
  rcases h01 with rfl | rfl
  · exact Or.inl rfl
  · exact Or.inr rfl

theorem caLoop_bits {K : Type} [LinearOrderedField K] (rnd : Nat → K) (c w h n : Nat) :
    ∀ a : CAGrid, IsGrid w h a → (∀ row ∈ a, ∀ cell ∈ row, IsBit cell) →
      ∀ grid ∈ caLoop (caRule rnd c).1 w h n a,
        IsGrid w h grid ∧ ∀ row ∈ grid, ∀ cell ∈ row, IsBit cell := by
  induction n with
  | zero => intro a _ _ grid hg; simp [caLoop] at hg
  | succ k ih =>
    intro a ha hb grid hg
    simp only [caLoop, List.mem_cons] at hg
    rcases hg with rfl | hg
    · exact ⟨ha, hb⟩
    · exact ih _ (isGrid_caStep _ w h a ha) (caStep_bits rnd c w h a ha) grid hg

/-- C18: for `w, h ≥ 1` and every `iter`, the key of every cell is a
9-character string over `0`/`1` and one of the 512 keys of the rule table, the
lookup `rule[key]` returns 0 or 1, and every cell of every returned snapshot is
0 or 1, never `undefined`. -/
theorem cellularAutomaton_lookup_total {K : Type} [LinearOrderedField K] (rnd : Nat → K)
    (c w h iter : Nat) (ruleSeed : Int) (_hw : 1 ≤ w) (_hh : 1 ≤ h) :
    (∀ (a : CAGrid) (x y : Nat),
      (caKey a w h x y).length = 9 ∧ (∀ ch ∈ caKey a w h x y, ch = '0' ∨ ch = '1') ∧
      caKey a w h x y ∈ (List.range 512).map ruleKey ∧
      ∃ v, ruleGet (caRule rnd (caInit rnd c w h).2).1 (caKey a w h x y) = some v ∧
        (v = 0 ∨ v = 1)) ∧
    ∀ grid ∈ (cellularAutomaton rnd c w h iter ruleSeed).1,
      IsGrid w h grid ∧ ∀ row ∈ grid, ∀ cell ∈ row, cell = some 0 ∨ cell = some 1 := by
  constructor
  · intro a x y
    obtain ⟨hlen, hbits⟩ := caKey_shape a w h x y
    exact ⟨hlen, hbits, key_mem_ruleKeys _ hlen hbits, caRule_total rnd _ a w h x y⟩
  · intro grid hgrid
    exact caLoop_bits rnd _ w h iter _ (isGrid_caInit rnd c w h) (caInit_bits rnd c w h)
      grid hgrid

theorem cellularAutomaton_lookup_total_witness :
    (∀ (a : CAGrid) (x y : Nat),
      (caKey a 1 1 x y).length = 9 ∧ (∀ ch ∈ caKey a 1 1 x y, ch = '0' ∨ ch = '1') ∧
      caKey a 1 1 x y ∈ (List.range 512).map ruleKey ∧
      ∃ v, ruleGet (caRule (rngStream 1) (caInit (rngStream 1) 0 1 1).2).1 (caKey a 1 1 x y)
          = some v ∧ (v = 0 ∨ v = 1)) ∧
    ∀ grid ∈ (cellularAutomaton (rngStream 1) 0 1 1 5 0).1,
      IsGrid 1 1 grid ∧ ∀ row ∈ grid, ∀ cell ∈ row, cell = some 0 ∨ cell = some 1 :=
  cellularAutomaton_lookup_total (rngStream 1) 0 1 1 5 0 (by decide) (by decide)

/-! ## The state update of `rng` is a bijection on words -/

theorem xorshift13_inverse (x : Nat) (hx : x < 4294967296) :
    (x ^^^ (x >>> 13)) ^^^ ((x ^^^ (x >>> 13)) >>> 13) ^^^ ((x ^^^ (x >>> 13)) >>> 26) = x := by
  apply Nat.eq_of_testBit_eq
  intro i
  have hhigh : x.testBit (13 + (26 + i)) = false := by
    apply Nat.testBit_lt_two_pow
    calc x < 2 ^ 32 := by simpa using hx
      _ ≤ 2 ^ (13 + (26 + i)) := Nat.pow_le_pow_right (by norm_num) (by omega)
  have e1 : 13 + (13 + i) = 26 + i := by omega
  simp only [Nat.testBit_xor, Nat.testBit_shiftRight, e1, hhigh]
  cases x.testBit i <;> cases x.testBit (13 + i) <;> cases x.testBit (26 + i) <;> rfl

theorem xorshift13_injective (x y : Nat) (hx : x < 4294967296) (hy : y < 4294967296)
    (h : x ^^^ (x >>> 13) = y ^^^ (y >>> 13)) : x = y := by
  rw [← xorshift13_inverse x hx, ← xorshift13_inverse y hy, h]

theorem mul48271_injective (a b : Nat) (ha : a < 4294967296) (hb : b < 4294967296)
    (h : 48271 * a % 4294967296 = 48271 * b % 4294967296) : a = b := by
  have hg : Nat.gcd 4294967296 48271 = 1 := by decide
  have hm : a ≡ b [MOD 4294967296] := Nat.ModEq.cancel_left_of_coprime hg h
  unfold Nat.ModEq at hm
  rwa [Nat.mod_eq_of_lt ha, Nat.mod_eq_of_lt hb] at hm

theorem rngStepWord_lt (u : Nat) : rngStepWord u < 4294967296 := by
  unfold rngStepWord
  exact Nat.mod_lt _ (by norm_num)

theorem rngStepWord_injective (a b : Nat) (ha : a < 4294967296) (hb : b < 4294967296)
    (h : rngStepWord a = rngStepWord b) : a = b := by
  unfold rngStepWord at h
  simp only at h
  have ha1 : 48271 * a % 4294967296 < 4294967296 := Nat.mod_lt _ (by norm_num)
  have hb1 : 48271 * b % 4294967296 < 4294967296 := Nat.mod_lt _ (by norm_num)
  have ha2 := xor_lt_word _ _ ha1 (shr_lt_word _ 13 ha1)
  have hb2 := xor_lt_word _ _ hb1 (shr_lt_word _ 13 hb1)
  have h2 : 48271 * a % 4294967296 ^^^ (48271 * a % 4294967296) >>> 13
      = 48271 * b % 4294967296 ^^^ (48271 * b % 4294967296) >>> 13 := by
    omega
  exact mul48271_injective a b ha hb (xorshift13_injective _ _ ha1 hb1 h2)

theorem rngStepWord_surjective (v : Nat) (hv : v < 4294967296) :
    ∃ u, u < 4294967296 ∧ rngStepWord u = v := by
  have hinj : Function.Injective
      (fun u : Fin 4294967296 => (⟨rngStepWord u.val, rngStepWord_lt u.val⟩ : Fin 4294967296)) := by
    intro a b hab
    have := congrArg Fin.val hab
    exact Fin.ext (rngStepWord_injective a.val b.val a.isLt b.isLt this)
  obtain ⟨u, hu⟩ := (Finite.injective_iff_surjective.mp hinj) ⟨v, hv⟩
  exact ⟨u.val, u.isLt, Fin.mk.inj hu⟩

theorem rngOut_injective (seed1 seed2 : Int) (n : Nat)
    (h : rngOut (rngState seed1 n) = rngOut (rngState seed2 n)) :
    toUint32 seed1 = toUint32 seed2 := by
  induction n with
  | zero =>
    simp only [rngOut, rngState] at h
    rwa [toUint32_ofNat _ (toUint32_lt _), toUint32_ofNat _ (toUint32_lt _)] at h
  | succ k ih =>
    rw [rngOut_succ, rngOut_succ] at h
    exact ih (rngStepWord_injective _ _ (toUint32_lt _) (toUint32_lt _) h)

/-- C20: the state update of `rng`, read on 32-bit words, is the map
`rngStepWord` (multiply by 48271, xor with the unsigned shift by 13, add
`0x7fffffff`, modulo `2^32`), and that map is a bijection of
`{0, ..., 2^32 - 1}`; so two streams whose seeds differ modulo `2^32` never
reach the same state after the same number of calls. -/
theorem rngStep_bijective :
    (∀ s : Int, toUint32 (rngStep s) = rngStepWord (toUint32 s)) ∧
    Set.BijOn rngStepWord {u | u < 4294967296} {u | u < 4294967296} ∧
    ∀ (seed1 seed2 : Int) (n : Nat), toUint32 seed1 ≠ toUint32 seed2 →
      rngOut (rngState seed1 n) ≠ rngOut (rngState seed2 n) := by
  refine ⟨rngStep_word, ⟨?_, ?_, ?_⟩, ?_⟩
  · intro u _
    exact rngStepWord_lt u
  · intro a ha b hb hab
    exact rngStepWord_injective a b ha hb hab
  · intro v hv
    obtain ⟨u, hu, huv⟩ := rngStepWord_surjective v hv
    exact ⟨u, hu, huv⟩
  · intro seed1 seed2 n hne h
    exact hne (rngOut_injective seed1 seed2 n h)

theorem rngStep_bijective_witness :
    rngOut (rngState 1 3) ≠ rngOut (rngState 2 3) :=
  rngStep_bijective.2.2 1 2 3 (by decide)

end Script
